import Mathlib

/-!
Verification of the filing-to-narrative extraction pipeline of this repository:
a shallow embedding of `clean_html_content` (src/parsing/html_cleaner.py) and
`extract_narrative_sections` (src/parsing/xbrl_converter.py).

Python strings are modelled as `List Char`.  Python runtime primitives
(`str.strip`, `str.splitlines`, `str.split`, `str.lower`, `in`, `str.find`,
slicing, and the `re.sub`/`re.split` calls on the concrete patterns the source
uses) are embedded as executable Lean functions with the same semantics.
-/

/-- Python whitespace: the character class removed by `str.strip()` (and used
here as the model of the whitespace class of the `re` module for text). -/
def pyIsSpaceB (c : Char) : Bool :=
  (0x09 ≤ c.toNat && c.toNat ≤ 0x0D) || (0x1C ≤ c.toNat && c.toNat ≤ 0x1F) ||
  c.toNat = 0x20 || c.toNat = 0x85 || c.toNat = 0xA0 || c.toNat = 0x1680 ||
  (0x2000 ≤ c.toNat && c.toNat ≤ 0x200A) || c.toNat = 0x2028 || c.toNat = 0x2029 ||
  c.toNat = 0x202F || c.toNat = 0x205F || c.toNat = 0x3000

/-- Python `str.strip()` with no arguments: drop leading and trailing whitespace. -/
def pyStrip (l : List Char) : List Char :=
  ((l.dropWhile pyIsSpaceB).reverse.dropWhile pyIsSpaceB).reverse

/-- The line-boundary characters of Python `str.splitlines()`. -/
def isLineBreakB (c : Char) : Bool :=
  c.toNat = 0x0A || c.toNat = 0x0D || c.toNat = 0x0B || c.toNat = 0x0C ||
  c.toNat = 0x1C || c.toNat = 0x1D || c.toNat = 0x1E || c.toNat = 0x85 ||
  c.toNat = 0x2028 || c.toNat = 0x2029

/-- Worker for `pySplitlines`: `acc` holds the reversed current line; a
`\r\n` pair is one boundary; a boundary at the very end opens no new line. -/
def splitlinesGo (acc : List Char) : List Char → List (List Char)
  | [] => [acc.reverse]
  | c :: t =>
    if isLineBreakB c then
      let r := if c = '\r' && t.head? = some '\n' then t.tail else t
      if r.isEmpty then [acc.reverse] else acc.reverse :: splitlinesGo [] r
    else splitlinesGo (c :: acc) t
termination_by l => l.length
decreasing_by
  · simp only [List.length_cons]
    split
    · simp only [List.length_tail]
      omega
    · omega
  · simp only [List.length_cons]
    omega

/-- Python `str.splitlines()`: split at any line boundary (with `\r\n` as one
boundary), no trailing empty piece, and the empty string gives no lines. -/
def pySplitlines (l : List Char) : List (List Char) :=
  match l with
  | [] => []
  | _ :: _ => splitlinesGo [] l

/-- Python `str.split` on the single character `\n` (keeps empty pieces). -/
def splitOnNl : List Char → List (List Char)
  | [] => [[]]
  | c :: t =>
    if c = '\n' then [] :: splitOnNl t
    else
      match splitOnNl t with
      | [] => [[c]]
      | p :: ps => (c :: p) :: ps

/-- Python `'\\n'.join`: the pieces joined by single newlines. -/
def joinNlLines : List (List Char) → List Char
  | [] => []
  | [p] => p
  | p :: q :: ps => p ++ '\n' :: joinNlLines (q :: ps)

/-- Python `str.lower()` (ASCII case folding; every string the source lowers
is compared against ASCII keyword literals). -/
def pyLower (l : List Char) : List Char := l.map Char.toLower

/-- Python `str.startswith` on lists. -/
def isPre : List Char → List Char → Bool
  | [], _ => true
  | _ :: _, [] => false
  | a :: as_, b :: bs => a = b && isPre as_ bs

theorem isPre_length {p l : List Char} (h : isPre p l = true) : p.length ≤ l.length := by
  induction p generalizing l with
  | nil => simp
  | cons a as_ ih =>
    cases l with
    | nil => simp [isPre] at h
    | cons b bs =>
      simp only [isPre, Bool.and_eq_true] at h
      simpa using ih h.2

/-- Python substring membership `pat in hay`. -/
def containsSub (hay pat : List Char) : Bool :=
  isPre pat hay ||
    match hay with
    | [] => false
    | _ :: t => containsSub t pat

/-- Python `str.find`: index of the first occurrence of `pat`, if any
(`None` models the -1 of the source). -/
def findSub (hay pat : List Char) : Option Nat :=
  if isPre pat hay then some 0
  else
    match hay with
    | [] => none
    | _ :: t => (findSub t pat).map (· + 1)

/-- Python `re.sub` with a literal (regex-free) nonempty pattern: replace all
non-overlapping occurrences, scanning left to right. -/
def replaceAll (pat repl : List Char) : List Char → List Char
  | [] => []
  | c :: t =>
    if pat ≠ [] ∧ isPre pat (c :: t) then
      repl ++ replaceAll pat repl ((c :: t).drop pat.length)
    else c :: replaceAll pat repl t
termination_by l => l.length
decreasing_by
  · rename_i h
    have hp := isPre_length h.2
    have hne : 1 ≤ pat.length := by
      cases pat with
      | nil => exact absurd rfl h.1
      | cons x xs => simp
    simp only [List.length_drop, List.length_cons]
    omega
  · simp

/-- Space or tab (the class of the `[ \t]+` pattern in the source). -/
def isSpTab (c : Char) : Bool := c = ' ' || c = '\t'

/-- Python `re.sub` with pattern `[ \t]+` and replacement a single space:
collapse each run of spaces and tabs to one space. -/
def collapseSpTab : List Char → List Char
  | [] => []
  | [c] => if isSpTab c then [' '] else [c]
  | c :: d :: t =>
    if isSpTab c then
      if isSpTab d then collapseSpTab (d :: t)
      else ' ' :: collapseSpTab (d :: t)
    else c :: collapseSpTab (d :: t)

/-- Index of the first occurrence of a character. -/
def idxOfChar (ch : Char) : List Char → Option Nat
  | [] => none
  | c :: t => if c = ch then some 0 else (idxOfChar ch t).map (· + 1)

/-- Python `re.sub` with pattern `<[^>]*>` and empty replacement: starting at
each unremoved `<` that is followed by some `>`, remove through the first
following `>`. -/
def stripTagLike : List Char → List Char
  | [] => []
  | c :: t =>
    if c = '<' then
      match idxOfChar '>' t with
      | some k => stripTagLike (t.drop (k + 1))
      | none => c :: stripTagLike t
    else c :: stripTagLike t
termination_by l => l.length
decreasing_by
  · simp only [List.length_drop, List.length_cons]; omega
  · simp
  · simp

/-- Python `re.sub` with pattern `/[^>]*>` and empty replacement. -/
def stripSlashGt : List Char → List Char
  | [] => []
  | c :: t =>
    if c = '/' then
      match idxOfChar '>' t with
      | some k => stripSlashGt (t.drop (k + 1))
      | none => c :: stripSlashGt t
    else c :: stripSlashGt t
termination_by l => l.length
decreasing_by
  · simp only [List.length_drop, List.length_cons]; omega
  · simp
  · simp

/-- ASCII letter. -/
def isAsciiAlpha (c : Char) : Bool := ('a' ≤ c && c ≤ 'z') || ('A' ≤ c && c ≤ 'Z')

/-- ASCII digit. -/
def isAsciiDigit (c : Char) : Bool := '0' ≤ c && c ≤ '9'

/-- ASCII hexadecimal digit. -/
def isHexDigitB (c : Char) : Bool :=
  isAsciiDigit c || ('a' ≤ c && c ≤ 'f') || ('A' ≤ c && c ≤ 'F')

/-- A character allowed in the name of a named character reference
(the class of the reference-matching pattern of the html module). -/
def isEntNameChar (c : Char) : Bool :=
  !(c = '\t' || c = '\n' || c = '\x0c' || c = ' ' || c = '<' || c = '&' || c = '#' || c = ';')

/-- Named character references known to the model of the html module of the
runtime (a subset of the full html5 table: exactly the entities that the
enumerated replacement set of `clean_html_content` interacts with, in their
with- and without-semicolon forms where html5 defines both).  References
outside this table pass through the model undecoded. -/
def entityLookup (s : List Char) : Option (List Char) :=
  if s = "amp;".toList || s = "amp".toList || s = "AMP;".toList || s = "AMP".toList then
    some ['&']
  else if s = "lt;".toList || s = "lt".toList || s = "LT;".toList || s = "LT".toList then
    some ['<']
  else if s = "gt;".toList || s = "gt".toList || s = "GT;".toList || s = "GT".toList then
    some ['>']
  else if s = "quot;".toList || s = "quot".toList || s = "QUOT;".toList || s = "QUOT".toList then
    some ['"']
  else if s = "apos;".toList then some [Char.ofNat 39]
  else if s = "nbsp;".toList || s = "nbsp".toList then some [Char.ofNat 160]
  else none

/-- Longest-defined-entity-prefix search of the html module (its replacement
loop tries prefixes of the matched group from the longest down to length 2). -/
def tryPrefixLen (s : List Char) : Nat → Option (List Char × Nat)
  | 0 => none
  | n + 1 =>
    if n + 1 < 2 then none
    else
      match entityLookup (s.take (n + 1)) with
      | some r => some (r, n + 1)
      | none => tryPrefixLen s n

/-- Replacement of a matched named reference group `s` (without the `&`):
whole-group lookup first, then longest defined prefix, else the raw text. -/
def replaceCharrefNamed (s : List Char) : List Char :=
  match entityLookup s with
  | some r => r
  | none =>
    match tryPrefixLen s (s.length - 1) with
    | some (r, x) => r ++ s.drop x
    | none => '&' :: s

/-- Decimal digit-list value. -/
def digitsToNat (ds : List Char) : Nat := ds.foldl (fun a c => a * 10 + (c.toNat - 48)) 0

/-- Hexadecimal digit value. -/
def hexDigitVal (c : Char) : Nat :=
  if isAsciiDigit c then c.toNat - 48
  else if 'a' ≤ c && c ≤ 'f' then c.toNat - 87
  else c.toNat - 55

/-- Hexadecimal digit-list value. -/
def hexToNat (ds : List Char) : Nat := ds.foldl (fun a c => a * 16 + hexDigitVal c) 0

/-- Decoding of a numeric character reference value: codepoint 0, surrogates
and out-of-range values give the replacement character.  (The remapping the
html module applies to the 0x80-0x9f range and to some control codepoints is
not modelled; no claim depends on those codepoints.) -/
def numericCharref (n : Nat) : List Char :=
  if n = 0 then [Char.ofNat 0xFFFD]
  else if 0xD800 ≤ n && n ≤ 0xDFFF then [Char.ofNat 0xFFFD]
  else if 0x10FFFF < n then [Char.ofNat 0xFFFD]
  else [Char.ofNat n]

/-- Processing of a candidate character reference: `t` is the text after a
`&`.  Returns the decoded output and how many characters of `t` the matched
group consumed, mirroring the reference pattern
`(#[0-9]+;?|#[xX][0-9a-fA-F]+;?|[^\t\n\f <&#;]{1,32};?)` of the html module:
when nothing matches, the `&` stands as data and nothing is consumed. -/
def charrefStep (t : List Char) : List Char × Nat :=
  match t with
  | '#' :: rest =>
    match rest with
    | [] => (['&'], 0)
    | x :: rest2 =>
      if x = 'x' || x = 'X' then
        let ds := rest2.takeWhile isHexDigitB
        if ds = [] then (['&'], 0)
        else
          let semi : Nat := if (rest2.drop ds.length).head? = some ';' then 1 else 0
          (numericCharref (hexToNat ds), 2 + ds.length + semi)
      else
        let ds := rest.takeWhile isAsciiDigit
        if ds = [] then (['&'], 0)
        else
          let semi : Nat := if (rest.drop ds.length).head? = some ';' then 1 else 0
          (numericCharref (digitsToNat ds), 1 + ds.length + semi)
  | _ =>
    let nm := (t.takeWhile isEntNameChar).take 32
    if nm = [] then (['&'], 0)
    else
      match t.drop nm.length with
      | ';' :: _ => (replaceCharrefNamed (nm ++ [';']), nm.length + 1)
      | _ => (replaceCharrefNamed nm, nm.length)

/-- A character allowed after the first letter of a tag name. -/
def isTagNameChar (c : Char) : Bool :=
  isAsciiAlpha c || isAsciiDigit c || c = '-' || c = '.' || c = ':' || c = '_'

/-- Lowercased tag name read at the start of `t` (the text after a `<`). -/
def lowerTagName (t : List Char) : List Char := pyLower (t.takeWhile isTagNameChar)

/-- How many characters of `rest` (the text after a script/style start tag)
belong to the element content plus its end tag: everything through the first
case-insensitive `</name` followed by a `>`; all of `rest` when the element
is never closed (an unclosed script/style element runs to the end of input
and is removed with the element). -/
def cdataEndConsumed (name rest : List Char) : Nat :=
  match findSub (pyLower rest) ('<' :: '/' :: name) with
  | none => rest.length
  | some i =>
    match idxOfChar '>' (rest.drop i) with
    | none => rest.length
    | some k => i + k + 1

/-- Model of `BeautifulSoup(html_text, "html.parser")` with `script`/`style`
elements decomposed, followed by `soup.get_text()` — the first step of
`clean_html_content`.  BeautifulSoup is an external dependency of the
repository; this embeds its observable behavior on the tokenizer level:
markup constructs are dropped, script/style content is dropped, character
references in text are decoded (see `charrefStep`), a `<` that opens no
complete construct is kept as data.  Simplifications (documented, not used
by any proof about arbitrary inputs): a `>` inside a quoted attribute value
ends its tag; an unterminated comment or declaration at end of input is
dropped rather than partially replayed as data. -/
def bsGetText : List Char → List Char
  | [] => []
  | c :: t =>
    if c = '&' then
      (charrefStep t).1 ++ bsGetText (t.drop (charrefStep t).2)
    else if c = '<' then
      match t.head? with
      | none => ['<']
      | some d =>
        if d = '!' then
          if isPre "!--".toList t then
            match findSub t "-->".toList with
            | some i => bsGetText (t.drop (i + 3))
            | none => []
          else
            match idxOfChar '>' t with
            | some k => bsGetText (t.drop (k + 1))
            | none => []
        else if d = '?' then
          match idxOfChar '>' t with
          | some k => bsGetText (t.drop (k + 1))
          | none => []
        else if d = '/' then
          match idxOfChar '>' t with
          | some k => bsGetText (t.drop (k + 1))
          | none => '<' :: bsGetText t
        else if isAsciiAlpha d then
          match idxOfChar '>' t with
          | some k =>
            let name := lowerTagName t
            if (name = "script".toList || name = "style".toList) &&
                (t.take k).getLast? ≠ some '/' then
              bsGetText ((t.drop (k + 1)).drop (cdataEndConsumed name (t.drop (k + 1))))
            else bsGetText (t.drop (k + 1))
          | none => '<' :: bsGetText t
        else '<' :: bsGetText t
    else c :: bsGetText t
termination_by l => l.length
decreasing_by
  all_goals simp only [List.length_drop, List.length_cons]
  all_goals omega

/-- The source `clean_html_content` of src/parsing/html_cleaner.py: parse and
flatten markup, keep stripped non-empty lines, collapse intra-line runs of
spaces and tabs, apply the enumerated entity replacements, remove remaining
tag-like and slash-to-gt spans and the two literal artifacts, collapse again
and strip the whole result (the source strips twice: once before `return`
and once in the `return` expression). -/
def clean_html_content (html_text : List Char) : List Char :=
  let text0 := bsGetText html_text
  let lines := ((pySplitlines text0).map pyStrip).filter (fun line => !line.isEmpty)
  let text1 := joinNlLines lines
  let text2 := collapseSpTab text1
  let text3 := replaceAll "&nbsp;".toList [' '] text2
  let text4 := replaceAll "&amp;".toList ['&'] text3
  let text5 := replaceAll "&lt;".toList ['<'] text4
  let text6 := replaceAll "&gt;".toList ['>'] text5
  let text7 := replaceAll "&quot;".toList ['"'] text6
  let text8 := replaceAll "&apos;".toList [Char.ofNat 39] text7
  let text9 := replaceAll "&#160;".toList [' '] text8
  let text10 := replaceAll "&#8217;".toList [Char.ofNat 0x2019] text9
  let text11 := replaceAll "&#8211;".toList ['-'] text10
  let text12 := replaceAll "&#8212;".toList ['-', '-'] text11
  let text13 := stripTagLike text12
  let text14 := stripSlashGt text13
  let text15 := replaceAll "#160;".toList [' '] text14
  let text16 := replaceAll "br clear=\"none\"".toList [] text15
  let text17 := collapseSpTab text16
  pyStrip (pyStrip text17)

/-- Index of the last newline of a list, if any. -/
def lastNlIdx : List Char → Option Nat
  | [] => none
  | c :: t =>
    match lastNlIdx t with
    | some j => some (j + 1)
    | none => if c = '\n' then some 0 else none

/-- First match of the pattern `\n\s*\n` of `re.split`: returns the text
before the match and the text after it.  The greedy `\s*` with backtracking
extends a match that starts at a newline through the last newline inside the
following whitespace run. -/
def findBlankSplit : List Char → Option (List Char × List Char)
  | [] => none
  | c :: t =>
    if c = '\n' then
      match lastNlIdx (t.takeWhile pyIsSpaceB) with
      | some j => some ([], t.drop (j + 1))
      | none => (findBlankSplit t).map (fun pr => (c :: pr.1, pr.2))
    else (findBlankSplit t).map (fun pr => (c :: pr.1, pr.2))

theorem findBlankSplit_rest_length :
    ∀ {l p rest : List Char}, findBlankSplit l = some (p, rest) → rest.length < l.length := by
  intro l
  induction l with
  | nil => intro p rest h; simp [findBlankSplit] at h
  | cons c t ih =>
    intro p rest h
    rw [findBlankSplit] at h
    by_cases hc : c = '\n'
    · rw [if_pos hc] at h
      cases hm : lastNlIdx (t.takeWhile pyIsSpaceB) with
      | some j =>
        rw [hm] at h
        simp only [Option.some.injEq, Prod.mk.injEq] at h
        have hr : rest = t.drop (j + 1) := h.2.symm
        subst hr
        simp only [List.length_drop, List.length_cons]
        omega
      | none =>
        rw [hm] at h
        simp only [Option.map_eq_some'] at h
        obtain ⟨⟨p0, r0⟩, hfind, heq⟩ := h
        have hlt := ih hfind
        simp only [Prod.mk.injEq] at heq
        have hr : rest = r0 := heq.2.symm
        subst hr
        simp only [List.length_cons]
        omega
    · rw [if_neg hc] at h
      simp only [Option.map_eq_some'] at h
      obtain ⟨⟨p0, r0⟩, hfind, heq⟩ := h
      have hlt := ih hfind
      simp only [Prod.mk.injEq] at heq
      have hr : rest = r0 := heq.2.symm
      subst hr
      simp only [List.length_cons]
      omega

/-- Python `re.split` with the pattern `\n\s*\n`: the pieces of the text
between consecutive matches. -/
def reSplitBlank (l : List Char) : List (List Char) :=
  match h : findBlankSplit l with
  | none => [l]
  | some (p, rest) => p :: reSplitBlank rest
termination_by l.length
decreasing_by exact findBlankSplit_rest_length h

/-- The apostrophe character (written by codepoint). -/
def aposChar : Char := Char.ofNat 39

/-- The `narrative_keywords` list of `extract_narrative_sections`. -/
def NARRATIVE_KEYWORDS : List (List Char) :=
  [ "management".toList ++ aposChar :: "s discussion".toList,
    "risk factors".toList,
    "business overview".toList,
    "results of operations".toList,
    "liquidity and capital".toList,
    "forward-looking statements".toList,
    "covid-19".toList,
    "pandemic".toList,
    "revenue".toList,
    "earnings".toList,
    "growth".toList,
    "outlook".toList,
    "item 1".toList,
    "item 1a".toList,
    "item 7".toList,
    "item 7a".toList ]

/-- The `stop_word` list of `extract_narrative_sections`. -/
def STOP_WORDS : List (List Char) :=
  ["item ".toList, "part ".toList, "exhibit".toList, "table of contents".toList]

/-- The finance-relevance keyword list of the fallback pass. -/
def FALLBACK_KEYWORDS : List (List Char) :=
  ["revenue".toList, "earnings".toList, "growth".toList, "profit".toList, "loss".toList,
   "business".toList, "company".toList, "financial".toList, "results".toList,
   "operations".toList]

/-- Python `' '.join`. -/
def joinSp (ls : List (List Char)) : List Char := List.intercalate [' '] ls

/-- Whether a stripped line contains a trigger keyword (case-insensitively). -/
def lineTrigger (line : List Char) : Bool :=
  NARRATIVE_KEYWORDS.any (fun kw => containsSub (pyLower line) kw)

/-- Whether a stripped line contains a stop word (case-insensitively). -/
def lineStop (line : List Char) : Bool :=
  STOP_WORDS.any (fun kw => containsSub (pyLower line) kw)

/-- The loop state of the line scan of `extract_narrative_sections`:
`narrative_sections`, `current_section` and `in_narrative`. -/
structure ScanState where
  sections : List (List Char)
  current : List (List Char)
  inNarrative : Bool
deriving DecidableEq

/-- One iteration of the line scan of `extract_narrative_sections`. -/
def scanStep (st : ScanState) (rawLine : List Char) : ScanState :=
  let line := pyStrip rawLine
  if line.isEmpty then st
  else if lineTrigger line then
    { sections :=
        if !st.current.isEmpty && decide (500 < (joinSp st.current).length) then
          st.sections ++ [joinSp st.current]
        else st.sections,
      current := [line],
      inNarrative := true }
  else if st.inNarrative then
    let cur := st.current ++ [line]
    if decide (50 < cur.length) || lineStop line then
      { sections :=
          if decide (500 < (joinSp cur).length) then st.sections ++ [joinSp cur]
          else st.sections,
        current := [],
        inNarrative := false }
    else { st with current := cur }
  else st

/-- The chunk filter of the fallback pass: longer than 1000 characters and
containing a finance-relevance keyword. -/
def fallbackPred (ch : List Char) : Bool :=
  decide (1000 < ch.length) && FALLBACK_KEYWORDS.any (fun kw => containsSub (pyLower ch) kw)

/-- The fallback `for chunk in chunks` loop of `extract_narrative_sections`:
append each stripped chunk that passes `fallbackPred`. -/
def fallbackLoop (secs : List (List Char)) : List (List Char) → List (List Char)
  | [] => secs
  | ch :: rest =>
    let ch2 := pyStrip ch
    if fallbackPred ch2 then fallbackLoop (secs ++ [ch2]) rest
    else fallbackLoop secs rest

/-- The dedup loop of `extract_narrative_sections`, generic in the hash
function (Python `hash` is unspecified beyond being a function into a
bounded integer range; `seen` models the Python set of already seen hash
values). -/
def dedupHashAux {kappa : Type} [DecidableEq kappa] (h : List Char → kappa)
    (seen : List kappa) : List (List Char) → List (List Char)
  | [] => []
  | s :: rest =>
    if h (s.take 200) ∈ seen then dedupHashAux h seen rest
    else s :: dedupHashAux h (h (s.take 200) :: seen) rest

/-- Hash-based deduplication of `extract_narrative_sections`: keep a section
when the hash of its first 200 characters has not been seen. -/
def dedupByHash {kappa : Type} [DecidableEq kappa] (h : List Char → kappa)
    (cands : List (List Char)) : List (List Char) :=
  dedupHashAux h [] cands

/-- The document-body isolation step of `extract_narrative_sections`: when
both markers occur, keep the slice from the first `<DOCUMENT>` to the first
`</DOCUMENT>` (the inner match mirrors the redundant `!= -1` re-check of the
source). -/
def isolateDocument (content : List Char) : List Char :=
  if containsSub content "<DOCUMENT>".toList && containsSub content "</DOCUMENT>".toList then
    match findSub content "<DOCUMENT>".toList, findSub content "</DOCUMENT>".toList with
    | some s, some e => (content.take e).drop s
    | _, _ => content
  else content

/-- The body of `extract_narrative_sections` of src/parsing/xbrl_converter.py
after the document-body isolation: clean, scan the lines, append the final
open buffer, run the fallback pass when fewer than 3 sections were found,
deduplicate by hash of the 200-character prefix, and cap at 5 sections. -/
def extractPostIso {kappa : Type} [DecidableEq kappa] (h : List Char → kappa)
    (content : List Char) : List (List Char) :=
  let cleaned := clean_html_content content
  let st := (splitOnNl cleaned).foldl scanStep ⟨[], [], false⟩
  let secs :=
    if !st.current.isEmpty && decide (500 < (joinSp st.current).length) then
      st.sections ++ [joinSp st.current]
    else st.sections
  let cands :=
    if secs.length < 3 then fallbackLoop secs (reSplitBlank cleaned) else secs
  (dedupByHash h cands).take 5

/-- The source `extract_narrative_sections`, as a function of the outcome of
reading the file: the `except` handler turns any read failure into the empty
list (after printing), and a successful read goes through isolation and
extraction. -/
def extract_narrative_sections {kappa : Type} [DecidableEq kappa] (h : List Char → kappa)
    (readResult : Except (List Char) (List Char)) : List (List Char) :=
  match readResult with
  | Except.error _ => []
  | Except.ok content => extractPostIso h (isolateDocument content)

/-- The keyword-scan sections of one document (scan plus final open buffer),
stated standalone for the theorems below. -/
def kwScanSections (content : List Char) : List (List Char) :=
  let cleaned := clean_html_content (isolateDocument content)
  let st := (splitOnNl cleaned).foldl scanStep ⟨[], [], false⟩
  if !st.current.isEmpty && decide (500 < (joinSp st.current).length) then
    st.sections ++ [joinSp st.current]
  else st.sections

/-- The fallback candidates of one document, stated standalone as a filter:
the stripped blank-line-bounded chunks of the cleaned text that are longer
than 1000 characters and contain a finance-relevance keyword, in order. -/
def fallbackCands (content : List Char) : List (List Char) :=
  ((reSplitBlank (clean_html_content (isolateDocument content))).map pyStrip).filter fallbackPred

/-- The full candidate list of one document before deduplication and capping. -/
def candidatesOf (content : List Char) : List (List Char) :=
  if (kwScanSections content).length < 3 then kwScanSections content ++ fallbackCands content
  else kwScanSections content

/-- No `<` standing anywhere before a later `>`: the strengthened form of
"no line contains raw tag syntax" that the cleanup output satisfies (a text
with this property contains no `<...>` span at all). -/
def noLtBeforeGt : List Char → Bool
  | [] => true
  | c :: t => if c = '<' then !t.elem '>' else noLtBeforeGt t

/-- The angle-bracket characters of a text, in order. -/
def ltgtOnly (l : List Char) : List Char := l.filter (fun c => c = '<' || c = '>')

/-- The line-normalization core of `clean_html_content`: stripped non-empty
lines joined by newlines, with space-tab runs collapsed. -/
def normalizeLines (s : List Char) : List Char :=
  collapseSpTab (joinNlLines (((pySplitlines s).map pyStrip).filter (fun line => !line.isEmpty)))

/-- Fixed-width bit-string encoding of a natural number below 2 ^ 65 (used to
exhibit that any hash into a 64-bit range collides on some pair of section
prefixes). -/
def encBits (n : Nat) : List Char :=
  (List.range 65).map (fun i => if n.testBit i then '1' else '0')

/-- Deduplication by direct comparison of 200-character prefixes.  Modelled
from the spec words ("keep a section only if no earlier-kept section shares
the same first-200-character prefix (exact match)"): the refinement target
that the spec asks to implement in place of the hash-based key. -/
def dedupDirectAux (seenPre : List (List Char)) : List (List Char) → List (List Char)
  | [] => []
  | s :: rest =>
    if s.take 200 ∈ seenPre then dedupDirectAux seenPre rest
    else s :: dedupDirectAux (s.take 200 :: seenPre) rest

/-- Top-level direct-prefix deduplication. -/
def dedupDirect (cands : List (List Char)) : List (List Char) := dedupDirectAux [] cands

/-- Collision-freeness of a hash function on the 200-character prefixes of a
candidate list. -/
def InjOnPref {kappa : Type} (h : List Char → kappa) (cands : List (List Char)) : Prop :=
  ∀ a ∈ cands, ∀ b ∈ cands, h (a.take 200) = h (b.take 200) → a.take 200 = b.take 200

theorem dedupHashAux_sublist {kappa : Type} [DecidableEq kappa] (h : List Char → kappa) :
    ∀ (l : List (List Char)) (seen : List kappa), (dedupHashAux h seen l).Sublist l := by
  intro l
  induction l with
  | nil => intro seen; simp [dedupHashAux]
  | cons s rest ih =>
    intro seen
    rw [dedupHashAux]
    by_cases hs : h (s.take 200) ∈ seen
    · exact List.Sublist.trans (by rw [if_pos hs]; exact ih seen) (List.sublist_cons_self s rest)
    · rw [if_neg hs]
      exact List.Sublist.cons₂ s (ih (h (s.take 200) :: seen))

theorem dedupHashAux_mem_not_seen {kappa : Type} [DecidableEq kappa] (h : List Char → kappa) :
    ∀ (l : List (List Char)) (seen : List kappa) (s : List Char),
      s ∈ dedupHashAux h seen l → h (s.take 200) ∉ seen := by
  intro l
  induction l with
  | nil => intro seen s hmem; simp [dedupHashAux] at hmem
  | cons a rest ih =>
    intro seen s hmem
    rw [dedupHashAux] at hmem
    by_cases ha : h (a.take 200) ∈ seen
    · rw [if_pos ha] at hmem
      exact ih seen s hmem
    · rw [if_neg ha] at hmem
      rcases List.mem_cons.mp hmem with he | hm
      · subst he; exact ha
      · intro hcon
        exact ih _ s hm (List.mem_cons_of_mem _ hcon)

theorem dedupHashAux_pairwise {kappa : Type} [DecidableEq kappa] (h : List Char → kappa) :
    ∀ (l : List (List Char)) (seen : List kappa),
      (dedupHashAux h seen l).Pairwise (fun a b => h (a.take 200) ≠ h (b.take 200)) := by
  intro l
  induction l with
  | nil => intro seen; simp [dedupHashAux]
  | cons a rest ih =>
    intro seen
    rw [dedupHashAux]
    by_cases ha : h (a.take 200) ∈ seen
    · rw [if_pos ha]; exact ih seen
    · rw [if_neg ha]
      refine List.Pairwise.cons ?_ (ih (h (a.take 200) :: seen))
      intro b hb hcon
      exact dedupHashAux_mem_not_seen h rest _ b hb (by rw [← hcon]; exact List.mem_cons_self _ _)

theorem dedupHashAux_eq_direct {kappa : Type} [DecidableEq kappa] (h : List Char → kappa) :
    ∀ (l : List (List Char)) (seenPre : List (List Char)),
      (∀ a ∈ l, ∀ p ∈ seenPre, h (a.take 200) = h p → a.take 200 = p) →
      InjOnPref h l →
      dedupHashAux h (seenPre.map h) l = dedupDirectAux seenPre l := by
  intro l
  induction l with
  | nil => intro seenPre _ _; simp [dedupHashAux, dedupDirectAux]
  | cons s rest ih =>
    intro seenPre hseen hinj
    rw [dedupHashAux, dedupDirectAux]
    by_cases hp : s.take 200 ∈ seenPre
    · have hh : h (s.take 200) ∈ seenPre.map h := List.mem_map_of_mem h hp
      rw [if_pos hh, if_pos hp]
      exact ih seenPre (fun a ha => hseen a (List.mem_cons_of_mem _ ha))
        (fun a ha b hb => hinj a (List.mem_cons_of_mem _ ha) b (List.mem_cons_of_mem _ hb))
    · have hh : h (s.take 200) ∉ seenPre.map h := by
        intro hmem
        rcases List.mem_map.mp hmem with ⟨p, hpmem, hpe⟩
        exact hp (hseen s (List.mem_cons_self _ _) p hpmem hpe.symm ▸ hpmem)
      rw [if_neg hh, if_neg hp]
      congr 1
      have : (s.take 200 :: seenPre).map h = h (s.take 200) :: seenPre.map h := rfl
      rw [← this]
      refine ih (s.take 200 :: seenPre) ?_ ?_
      · intro a ha p hpmem heq
        rcases List.mem_cons.mp hpmem with he | hm
        · subst he
          exact hinj a (List.mem_cons_of_mem _ ha) s (List.mem_cons_self _ _)
            (by simpa [List.take_take] using heq) |>.trans (by simp [List.take_take])
        · exact hseen a (List.mem_cons_of_mem _ ha) p hm heq
      · intro a ha b hb
        exact hinj a (List.mem_cons_of_mem _ ha) b (List.mem_cons_of_mem _ hb)

theorem fallbackLoop_eq (chunks : List (List Char)) :
    ∀ secs, fallbackLoop secs chunks = secs ++ (chunks.map pyStrip).filter fallbackPred := by
  induction chunks with
  | nil => intro secs; simp [fallbackLoop]
  | cons ch rest ih =>
    intro secs
    rw [fallbackLoop]
    by_cases hp : fallbackPred (pyStrip ch)
    · simp only [if_pos hp, ih, List.map_cons, List.filter_cons, hp, if_pos]
      simp
    · simp only [if_neg hp, ih, List.map_cons, List.filter_cons, hp]
      simp [hp]

theorem extract_eq_structural {kappa : Type} [DecidableEq kappa] (h : List Char → kappa)
    (content : List Char) :
    extract_narrative_sections h (Except.ok content) =
      (dedupByHash h (candidatesOf content)).take 5 := by
  show extractPostIso h (isolateDocument content) = _
  rw [extractPostIso, candidatesOf, kwScanSections, fallbackCands]
  simp only [fallbackLoop_eq]

theorem findSub_of_containsSub :
    ∀ {hay pat : List Char}, containsSub hay pat = true → ∃ i, findSub hay pat = some i := by
  intro hay
  induction hay with
  | nil =>
    intro pat hc
    rw [containsSub] at hc
    simp only [Bool.or_false] at hc
    exact ⟨0, by rw [findSub, if_pos hc]⟩
  | cons c t ih =>
    intro pat hc
    by_cases hp : isPre pat (c :: t) = true
    · exact ⟨0, by rw [findSub, if_pos hp]⟩
    · rw [containsSub] at hc
      rcases Bool.or_eq_true_iff.mp hc with h1 | h2
      · exact absurd h1 hp
      · obtain ⟨i, hi⟩ := ih h2
        exact ⟨i + 1, by rw [findSub, if_neg hp, hi]; rfl⟩

theorem findSub_spec :
    ∀ {hay pat : List Char} {i : Nat}, findSub hay pat = some i →
      isPre pat (hay.drop i) = true ∧ ∀ k, k < i → isPre pat (hay.drop k) = false := by
  intro hay
  induction hay with
  | nil =>
    intro pat i h
    rw [findSub] at h
    by_cases hp : isPre pat [] = true
    · rw [if_pos hp] at h
      injection h with h
      subst h
      exact ⟨hp, fun k hk => absurd hk (Nat.not_lt_zero k)⟩
    · rw [if_neg hp] at h
      exact absurd h (by simp)
  | cons c t ih =>
    intro pat i h
    rw [findSub] at h
    by_cases hp : isPre pat (c :: t) = true
    · rw [if_pos hp] at h
      injection h with h
      subst h
      exact ⟨hp, fun k hk => absurd hk (Nat.not_lt_zero k)⟩
    · rw [if_neg hp] at h
      simp only [Option.map_eq_some'] at h
      obtain ⟨i0, hi0, hieq⟩ := h
      subst hieq
      obtain ⟨hfound, hmin⟩ := ih hi0
      refine ⟨by simpa using hfound, ?_⟩
      intro k hk
      cases k with
      | zero => simpa using Bool.eq_false_iff.mpr hp
      | succ k0 =>
        simp only [List.drop_succ_cons]
        exact hmin k0 (Nat.lt_of_succ_lt_succ hk)

theorem containsSub_of_isPre_drop :
    ∀ {hay pat : List Char} {i : Nat}, isPre pat (hay.drop i) = true →
      containsSub hay pat = true := by
  intro hay
  induction hay with
  | nil =>
    intro pat i h
    rw [containsSub]
    cases i <;> simp_all
  | cons c t ih =>
    intro pat i h
    rw [containsSub]
    cases i with
    | zero =>
      simp only [List.drop_zero] at h
      simp [h]
    | succ i0 =>
      simp only [List.drop_succ_cons] at h
      simp [ih h]

theorem isolateDocument_empty_of_reversed {content : List Char} {i j : Nat}
    (hopen : findSub content "<DOCUMENT>".toList = some i)
    (hclose : findSub content "</DOCUMENT>".toList = some j)
    (hij : j < i) :
    isolateDocument content = [] := by
  have ho : containsSub content "<DOCUMENT>".toList = true :=
    containsSub_of_isPre_drop (findSub_spec hopen).1
  have hc : containsSub content "</DOCUMENT>".toList = true :=
    containsSub_of_isPre_drop (findSub_spec hclose).1
  rw [isolateDocument, if_pos (by rw [ho, hc]; rfl), hopen, hclose]
  apply List.drop_eq_nil_of_le
  have : (content.take j).length ≤ j := by simp
  omega

unseal replaceAll stripTagLike stripSlashGt bsGetText reSplitBlank in
theorem extractPostIso_nil {kappa : Type} [DecidableEq kappa] (h : List Char → kappa) :
    extractPostIso h [] = [] := rfl

/-- Claim C3: for every hash function and every document content, the
SectionSet returned by `extract_narrative_sections` contains at most 5
sections, and it is exactly the first 5 (the 5-prefix, in discovery order) of
the candidates surviving deduplication. -/
theorem extract_cap_five {kappa : Type} [DecidableEq kappa] (h : List Char → kappa)
    (content : List Char) :
    (extract_narrative_sections h (Except.ok content)).length ≤ 5 ∧
    extract_narrative_sections h (Except.ok content) =
      (dedupByHash h (candidatesOf content)).take 5 := by
  refine ⟨?_, extract_eq_structural h content⟩
  rw [extract_eq_structural h content]
  exact List.length_take_le 5 _

/-- Claim C5, counterexample: the hash key is unspecified (Python `hash`),
and for an admissible hash with a collision the first occurrence of a
duplicated prefix is not kept: with a constant hash, `['b']` occurs twice in
the candidates, yet no occurrence of it survives, while direct prefix
deduplication keeps the first one. -/
theorem dedup_first_occurrence_cex :
    dedupByHash (fun _ => (0 : Int)) [['a'], ['b'], ['b']] = [['a']] ∧
    dedupDirect [['a'], ['b'], ['b']] = [['a'], ['b']] :=
  ⟨rfl, rfl⟩

/-- Claim C5, amended: for every hash function, the sections returned by
`extract_narrative_sections` have pairwise distinct 200-character prefixes,
and deduplication is stable (the survivors form a sublist of the candidate
list); it moreover keeps exactly the first occurrence of each duplicated
prefix (= agrees with direct prefix deduplication) whenever the hash is
collision-free on the candidate prefixes. -/
theorem extract_dedup_amended {kappa : Type} [DecidableEq kappa] (h : List Char → kappa)
    (content : List Char) (cands : List (List Char)) :
    (extract_narrative_sections h (Except.ok content)).Pairwise
      (fun a b => a.take 200 ≠ b.take 200) ∧
    (dedupByHash h cands).Sublist cands ∧
    (InjOnPref h cands → dedupByHash h cands = dedupDirect cands) := by
  refine ⟨?_, dedupHashAux_sublist h cands [], ?_⟩
  · rw [extract_eq_structural h content]
    have hp := dedupHashAux_pairwise h (candidatesOf content) []
    have hp2 : (dedupHashAux h [] (candidatesOf content)).Pairwise
        (fun a b => a.take 200 ≠ b.take 200) :=
      hp.imp (fun hne he => hne (by rw [he]))
    exact hp2.sublist (List.take_sublist 5 _)
  · intro hinj
    have := dedupHashAux_eq_direct h cands [] (by intro a _ p hp; simp at hp) hinj
    simpa [dedupByHash, dedupDirect] using this

/-- Claim C5, witness for the amended statement at concrete inputs. -/
theorem extract_dedup_amended_witness :
    ([] : List (List Char)).Pairwise (fun a b => a.take 200 ≠ b.take 200) ∧
    (dedupByHash (fun l => (l.length : Int)) [['a'], ['b', 'c'], ['a']]).Sublist
      [['a'], ['b', 'c'], ['a']] ∧
    (InjOnPref (fun l => (l.length : Int)) [['a'], ['b', 'c'], ['a']] →
      dedupByHash (fun l => (l.length : Int)) [['a'], ['b', 'c'], ['a']] =
        dedupDirect [['a'], ['b', 'c'], ['a']]) := by
  have := extract_dedup_amended (fun l => (l.length : Int)) [] [['a'], ['b', 'c'], ['a']]
  exact ⟨by simp, this.2.1, this.2.2⟩

/-- Claim C6, counterexample: deduplication keyed on an unspecified hash of
the 200-character prefix is not, for every admissible hash function,
equivalent to direct prefix comparison: a hash with a collision merges
distinct prefixes. -/
theorem dedup_hash_equiv_cex :
    ¬ ∀ (h : List Char → Int) (cands : List (List Char)),
        dedupByHash h cands = dedupDirect cands := by
  intro H
  have h1 := H (fun _ => 0) [['a'], ['b']]
  have h2 : dedupByHash (fun _ => (0 : Int)) [['a'], ['b']] = [['a']] := rfl
  have h3 : dedupDirect [['a'], ['b']] = [['a'], ['b']] := rfl
  rw [h2, h3] at h1
  simp at h1

/-- Claim C6, amended: hash-based deduplication agrees with direct
first-200-character-prefix deduplication exactly when the hash has no
collision among the candidate prefixes (which holds for any injective hash,
but cannot hold universally for a hash into a bounded integer range). -/
theorem dedup_hash_equiv_of_injOn {kappa : Type} [DecidableEq kappa] (h : List Char → kappa)
    (cands : List (List Char)) (hinj : InjOnPref h cands) :
    dedupByHash h cands = dedupDirect cands := by
  have := dedupHashAux_eq_direct h cands [] (by intro a _ p hp; simp at hp) hinj
  simpa [dedupByHash, dedupDirect] using this

/-- Claim C6, witness: the amended equivalence at a concrete collision-free
hash and candidate list. -/
theorem dedup_hash_equiv_of_injOn_witness :
    dedupByHash (fun l => (l.length : Int)) [['a'], ['b', 'c'], ['a']] =
      dedupDirect [['a'], ['b', 'c'], ['a']] :=
  dedup_hash_equiv_of_injOn (fun l => (l.length : Int)) [['a'], ['b', 'c'], ['a']]
    (by unfold InjOnPref; decide)

/-- Claim C7: the paragraph-chunk fallback contributes candidates exactly
when the keyword scan (including the final open buffer) produced fewer than
3 sections, and then the candidate list is the keyword sections followed by
the stripped blank-line-bounded chunks of the cleaned text that pass the
length-and-keyword filter, in order of occurrence. -/
theorem extract_fallback_iff {kappa : Type} [DecidableEq kappa] (h : List Char → kappa)
    (content : List Char) :
    extract_narrative_sections h (Except.ok content) =
      (dedupByHash h
        (if (kwScanSections content).length < 3 then
          kwScanSections content ++
            ((reSplitBlank (clean_html_content (isolateDocument content))).map pyStrip).filter
              fallbackPred
        else kwScanSections content)).take 5 := by
  rw [extract_eq_structural h content]
  rfl

/-- Claim C8: when both document markers occur, the isolation step keeps the
slice from the first occurrence of the opening marker (inclusive) to the
first occurrence of the closing marker (exclusive); when either is absent,
the input is returned unchanged. -/
theorem isolate_markers_spec (content : List Char) :
    (containsSub content "<DOCUMENT>".toList = true →
      containsSub content "</DOCUMENT>".toList = true →
      ∃ i j, findSub content "<DOCUMENT>".toList = some i ∧
        findSub content "</DOCUMENT>".toList = some j ∧
        isPre "<DOCUMENT>".toList (content.drop i) = true ∧
        (∀ k, k < i → isPre "<DOCUMENT>".toList (content.drop k) = false) ∧
        isPre "</DOCUMENT>".toList (content.drop j) = true ∧
        (∀ k, k < j → isPre "</DOCUMENT>".toList (content.drop k) = false) ∧
        isolateDocument content = (content.take j).drop i) ∧
    (¬(containsSub content "<DOCUMENT>".toList = true ∧
        containsSub content "</DOCUMENT>".toList = true) →
      isolateDocument content = content) := by
  constructor
  · intro ho hc
    obtain ⟨i, hi⟩ := findSub_of_containsSub ho
    obtain ⟨j, hj⟩ := findSub_of_containsSub hc
    obtain ⟨hoc, hom⟩ := findSub_spec hi
    obtain ⟨hcc, hcm⟩ := findSub_spec hj
    refine ⟨i, j, hi, hj, hoc, hom, hcc, hcm, ?_⟩
    rw [isolateDocument, if_pos (by rw [ho, hc]; rfl), hi, hj]
  · intro hn
    rw [isolateDocument, if_neg]
    intro hb
    rw [Bool.and_eq_true] at hb
    exact hn hb

unseal replaceAll stripTagLike stripSlashGt bsGetText reSplitBlank in
/-- Claim C9, counterexample: a read failure is caught inside
`extract_narrative_sections` itself and turned into the empty list — the very
value a valid extraction with no usable narrative content returns, so the
failure is not distinguishable from a valid empty SectionSet. -/
theorem extract_read_failure_cex :
    extract_narrative_sections (fun l => (l.length : Int))
      (Except.error "read failure".toList) = [] ∧
    extract_narrative_sections (fun l => (l.length : Int)) (Except.ok []) = [] :=
  ⟨rfl, by decide⟩

/-- Claim C9, amended: on any read failure `extract_narrative_sections`
returns the empty list (after logging), for every hash function and error;
the driver sees the same value as for a document with no narrative content
and skips the document in both cases. -/
theorem extract_read_failure_amended {kappa : Type} [DecidableEq kappa]
    (h : List Char → kappa) (e : List Char) :
    extract_narrative_sections h (Except.error e) = [] := rfl

/-- Claim C10: when the first occurrence of the closing marker precedes the
first occurrence of the opening marker, the isolation slice is empty and the
whole extraction returns the empty SectionSet. -/
theorem extract_reversed_markers_empty {kappa : Type} [DecidableEq kappa]
    (h : List Char → kappa) (content : List Char) (i j : Nat)
    (hopen : findSub content "<DOCUMENT>".toList = some i)
    (hclose : findSub content "</DOCUMENT>".toList = some j)
    (hij : j < i) :
    extract_narrative_sections h (Except.ok content) = [] := by
  show extractPostIso h (isolateDocument content) = []
  rw [isolateDocument_empty_of_reversed hopen hclose hij]
  exact extractPostIso_nil h

/-- Claim C10, witness: a concrete document whose closing marker comes
first. -/
theorem extract_reversed_markers_empty_witness :
    extract_narrative_sections (fun l => (l.length : Int))
      (Except.ok "</DOCUMENT>ab<DOCUMENT>".toList) = [] :=
  extract_reversed_markers_empty (fun l => (l.length : Int))
    "</DOCUMENT>ab<DOCUMENT>".toList 13 0 (by decide) (by decide) (by decide)

theorem scanStep_sections_min {st : ScanState} {line : List Char}
    (hst : ∀ s ∈ st.sections, 500 < s.length) :
    ∀ s ∈ (scanStep st line).sections, 500 < s.length := by
  intro s hs
  rw [scanStep] at hs
  by_cases h1 : (pyStrip line).isEmpty
  · rw [if_pos h1] at hs
    exact hst s hs
  · rw [if_neg h1] at hs
    by_cases h2 : lineTrigger (pyStrip line)
    · rw [if_pos h2] at hs
      simp only at hs
      by_cases h3 : (!st.current.isEmpty && decide (500 < (joinSp st.current).length)) = true
      · rw [if_pos h3] at hs
        rcases List.mem_append.mp hs with hm | hm
        · exact hst s hm
        · have heq : s = joinSp st.current := List.mem_singleton.mp hm
          subst heq
          rw [Bool.and_eq_true] at h3
          exact of_decide_eq_true h3.2
      · rw [if_neg h3] at hs
        exact hst s hs
    · rw [if_neg h2] at hs
      by_cases h4 : st.inNarrative
      · rw [if_pos h4] at hs
        simp only at hs
        by_cases h5 : (decide (50 < (st.current ++ [pyStrip line]).length) ||
            lineStop (pyStrip line)) = true
        · rw [if_pos h5] at hs
          simp only at hs
          by_cases h6 : decide (500 < (joinSp (st.current ++ [pyStrip line])).length) = true
          · rw [if_pos h6] at hs
            rcases List.mem_append.mp hs with hm | hm
            · exact hst s hm
            · have heq : s = joinSp (st.current ++ [pyStrip line]) := List.mem_singleton.mp hm
              subst heq
              exact of_decide_eq_true h6
          · rw [if_neg h6] at hs
            exact hst s hs
        · rw [if_neg h5] at hs
          exact hst s hs
      · rw [if_neg h4] at hs
        exact hst s hs

theorem foldl_scanStep_sections_min :
    ∀ (lines : List (List Char)) (st : ScanState),
      (∀ s ∈ st.sections, 500 < s.length) →
      ∀ s ∈ (lines.foldl scanStep st).sections, 500 < s.length := by
  intro lines
  induction lines with
  | nil => intro st hst; simpa using hst
  | cons l rest ih =>
    intro st hst
    exact ih _ (scanStep_sections_min hst)

theorem kwScanSections_min (content : List Char) :
    ∀ s ∈ kwScanSections content, 500 < s.length := by
  intro s hs
  rw [kwScanSections] at hs
  have hfold := foldl_scanStep_sections_min
    (splitOnNl (clean_html_content (isolateDocument content))) ⟨[], [], false⟩ (by simp)
  by_cases hg : (!((splitOnNl (clean_html_content (isolateDocument content))).foldl scanStep
      ⟨[], [], false⟩).current.isEmpty &&
      decide (500 < (joinSp ((splitOnNl (clean_html_content (isolateDocument content))).foldl
        scanStep ⟨[], [], false⟩).current).length)) = true
  · rw [if_pos hg] at hs
    rcases List.mem_append.mp hs with hm | hm
    · exact hfold s hm
    · have heq := List.mem_singleton.mp hm
      subst heq
      rw [Bool.and_eq_true] at hg
      exact of_decide_eq_true hg.2
  · rw [if_neg hg] at hs
    exact hfold s hs

theorem fallbackCands_min (content : List Char) :
    ∀ s ∈ fallbackCands content, 500 < s.length := by
  intro s hs
  rw [fallbackCands] at hs
  have hp := List.of_mem_filter hs
  rw [fallbackPred, Bool.and_eq_true] at hp
  have := of_decide_eq_true hp.1
  omega

theorem candidatesOf_min (content : List Char) :
    ∀ s ∈ candidatesOf content, 500 < s.length := by
  intro s hs
  rw [candidatesOf] at hs
  by_cases hg : (kwScanSections content).length < 3
  · rw [if_pos hg] at hs
    rcases List.mem_append.mp hs with hm | hm
    · exact kwScanSections_min content s hm
    · exact fallbackCands_min content s hm
  · rw [if_neg hg] at hs
    exact kwScanSections_min content s hs

/-- Claim C4: every section emitted by `extract_narrative_sections` — from
the keyword pass, the final open buffer, or the paragraph-chunk fallback —
has length strictly greater than 500 characters, for every hash function and
document content. -/
theorem extract_min_length {kappa : Type} [DecidableEq kappa] (h : List Char → kappa)
    (content : List Char) :
    (extract_narrative_sections h (Except.ok content)).Forall (fun sec => 500 < sec.length) := by
  rw [List.forall_iff_forall_mem, extract_eq_structural h content]
  intro s hs
  have hs2 : s ∈ dedupByHash h (candidatesOf content) := List.mem_of_mem_take hs
  have hs3 : s ∈ candidatesOf content := (dedupHashAux_sublist h _ []).subset hs2
  exact candidatesOf_min content s hs3

theorem noLtBeforeGt_of_not_mem {l : List Char} (h : '>' ∉ l) : noLtBeforeGt l = true := by
  induction l with
  | nil => rfl
  | cons c t ih =>
    rw [noLtBeforeGt]
    by_cases hc : c = '<'
    · rw [if_pos hc]
      simp only [Bool.not_eq_true']
      rw [← Bool.not_eq_true]
      intro hcon
      exact h (List.mem_cons_of_mem c (List.elem_iff.mp hcon))
    · rw [if_neg hc]
      exact ih (fun hm => h (List.mem_cons_of_mem c hm))

theorem noLtBeforeGt_sublist : ∀ {l' l : List Char}, List.Sublist l' l →
    noLtBeforeGt l = true → noLtBeforeGt l' = true := by
  intro l' l hsub
  induction hsub with
  | slnil => intro _; rfl
  | cons a hsub ih =>
    intro hl
    rw [noLtBeforeGt] at hl
    by_cases ha : a = '<'
    · rw [if_pos ha] at hl
      simp only [Bool.not_eq_true'] at hl
      refine ih (noLtBeforeGt_of_not_mem ?_)
      intro hmem
      rw [← Bool.not_eq_true] at hl
      exact hl (List.elem_iff.mpr hmem)
    · rw [if_neg ha] at hl
      exact ih hl
  | cons₂ a hsub ih =>
    intro hl
    rw [noLtBeforeGt] at hl ⊢
    by_cases ha : a = '<'
    · rw [if_pos ha] at hl ⊢
      simp only [Bool.not_eq_true'] at hl ⊢
      rw [← Bool.not_eq_true] at hl
      rw [← Bool.not_eq_true]
      intro hcon
      exact hl (List.elem_iff.mpr (hsub.subset (List.elem_iff.mp hcon)))
    · rw [if_neg ha] at hl ⊢
      exact ih hl

theorem ltgtOnly_append (a b : List Char) : ltgtOnly (a ++ b) = ltgtOnly a ++ ltgtOnly b := by
  rw [ltgtOnly, ltgtOnly, ltgtOnly, List.filter_append]

theorem elem_gt_ltgt (t : List Char) : (ltgtOnly t).elem '>' = t.elem '>' := by
  by_cases hm : '>' ∈ t
  · rw [List.elem_iff.mpr hm,
      List.elem_iff.mpr (by rw [ltgtOnly, List.mem_filter]; exact ⟨hm, by decide⟩)]
  · have h2 : '>' ∉ ltgtOnly t := fun hx => hm (List.mem_of_mem_filter hx)
    have e1 : t.elem '>' = false := by
      rw [← Bool.not_eq_true]
      intro hx
      exact hm (List.elem_iff.mp hx)
    have e2 : (ltgtOnly t).elem '>' = false := by
      rw [← Bool.not_eq_true]
      intro hx
      exact h2 (List.elem_iff.mp hx)
    rw [e1, e2]

theorem noLtBeforeGt_eq_ltgt : ∀ (l : List Char),
    noLtBeforeGt l = noLtBeforeGt (ltgtOnly l) := by
  intro l
  induction l with
  | nil => rfl
  | cons c t ih =>
    rw [noLtBeforeGt, ltgtOnly, List.filter_cons]
    by_cases hc : c = '<'
    · subst hc
      rw [if_pos rfl, if_pos (by decide)]
      rw [noLtBeforeGt, if_pos rfl, ← ltgtOnly, elem_gt_ltgt]
    · rw [if_neg hc]
      by_cases hg : c = '>'
      · subst hg
        rw [if_pos (by decide)]
        rw [noLtBeforeGt, if_neg (by decide), ← ltgtOnly]
        exact ih
      · rw [if_neg (by simp [hc, hg]), ← ltgtOnly]
        exact ih

theorem idxOfChar_none {ch : Char} : ∀ {l : List Char}, idxOfChar ch l = none → ch ∉ l := by
  intro l
  induction l with
  | nil => intro _ hm; simp at hm
  | cons c t ih =>
    intro h hm
    rw [idxOfChar] at h
    by_cases hc : c = ch
    · rw [if_pos hc] at h; exact absurd h (by simp)
    · rw [if_neg hc] at h
      rcases List.mem_cons.mp hm with he | hm2
      · exact hc he.symm
      · exact ih (by cases hx : idxOfChar ch t with
          | none => rfl
          | some k => rw [hx] at h; simp at h) hm2

theorem stripTagLike_sublist_aux : ∀ (n : Nat) (l : List Char), l.length ≤ n →
    List.Sublist (stripTagLike l) l := by
  intro n
  induction n with
  | zero =>
    intro l hl
    have h0 : l = [] := List.eq_nil_of_length_eq_zero (Nat.le_zero.mp hl)
    subst h0
    rw [stripTagLike]
  | succ n ih =>
    intro l hl
    cases l with
    | nil => rw [stripTagLike]
    | cons c t =>
      rw [stripTagLike]
      by_cases hc : c = '<'
      · rw [if_pos hc]
        cases hidx : idxOfChar '>' t with
        | some k =>
          have hle : (t.drop (k + 1)).length ≤ n := by
            simp only [List.length_drop]
            simp only [List.length_cons] at hl
            omega
          exact ((ih _ hle).trans (List.drop_sublist (k + 1) t)).trans
            (List.sublist_cons_self c t)
        | none =>
          exact List.Sublist.cons₂ c
            (ih t (by simp only [List.length_cons] at hl; omega))
      · rw [if_neg hc]
        exact List.Sublist.cons₂ c
          (ih t (by simp only [List.length_cons] at hl; omega))

theorem stripTagLike_sublist (l : List Char) : List.Sublist (stripTagLike l) l :=
  stripTagLike_sublist_aux l.length l (Nat.le_refl _)

theorem stripSlashGt_sublist_aux : ∀ (n : Nat) (l : List Char), l.length ≤ n →
    List.Sublist (stripSlashGt l) l := by
  intro n
  induction n with
  | zero =>
    intro l hl
    have h0 : l = [] := List.eq_nil_of_length_eq_zero (Nat.le_zero.mp hl)
    subst h0
    rw [stripSlashGt]
  | succ n ih =>
    intro l hl
    cases l with
    | nil => rw [stripSlashGt]
    | cons c t =>
      rw [stripSlashGt]
      by_cases hc : c = '/'
      · rw [if_pos hc]
        cases hidx : idxOfChar '>' t with
        | some k =>
          have hle : (t.drop (k + 1)).length ≤ n := by
            simp only [List.length_drop]
            simp only [List.length_cons] at hl
            omega
          exact ((ih _ hle).trans (List.drop_sublist (k + 1) t)).trans
            (List.sublist_cons_self c t)
        | none =>
          exact List.Sublist.cons₂ c
            (ih t (by simp only [List.length_cons] at hl; omega))
      · rw [if_neg hc]
        exact List.Sublist.cons₂ c
          (ih t (by simp only [List.length_cons] at hl; omega))

theorem stripSlashGt_sublist (l : List Char) : List.Sublist (stripSlashGt l) l :=
  stripSlashGt_sublist_aux l.length l (Nat.le_refl _)

theorem pyStrip_sublist (l : List Char) : List.Sublist (pyStrip l) l := by
  rw [pyStrip]
  have h1 : List.Sublist (l.dropWhile pyIsSpaceB) l :=
    (List.dropWhile_suffix pyIsSpaceB).sublist
  have h2 : List.Sublist ((l.dropWhile pyIsSpaceB).reverse.dropWhile pyIsSpaceB)
      (l.dropWhile pyIsSpaceB).reverse :=
    (List.dropWhile_suffix pyIsSpaceB).sublist
  have h3 : List.Sublist ((l.dropWhile pyIsSpaceB).reverse.dropWhile pyIsSpaceB).reverse
      (l.dropWhile pyIsSpaceB) := by
    have h4 := List.reverse_sublist.mpr h2
    rwa [List.reverse_reverse] at h4
  exact h3.trans h1

theorem ltgtOnly_sublist_of_sublist {a b : List Char} (h : List.Sublist a b) :
    List.Sublist (ltgtOnly a) (ltgtOnly b) := by
  rw [ltgtOnly, ltgtOnly]
  exact h.filter _

theorem collapse_ltgt_sublist : ∀ (l : List Char),
    List.Sublist (ltgtOnly (collapseSpTab l)) (ltgtOnly l) := by
  intro l
  induction l with
  | nil => rw [collapseSpTab]
  | cons c t ih =>
    cases t with
    | nil =>
      rw [collapseSpTab]
      by_cases hc : isSpTab c = true
      · rw [if_pos hc]
        have h1 : ltgtOnly [' '] = [] := by decide
        rw [h1]
        exact List.nil_sublist _
      · rw [if_neg hc]
    | cons d t2 =>
      rw [collapseSpTab]
      by_cases hc : isSpTab c = true
      · have hlt : c ≠ '<' := by
          intro he; subst he; simp [isSpTab] at hc
        have hgt : c ≠ '>' := by
          intro he; subst he; simp [isSpTab] at hc
        have hdrop : ltgtOnly (c :: d :: t2) = ltgtOnly (d :: t2) := by
          rw [ltgtOnly, List.filter_cons, if_neg (by simp [hlt, hgt]), ← ltgtOnly]
        by_cases hd : isSpTab d = true
        · rw [if_pos hc, if_pos hd, hdrop]
          exact ih
        · rw [if_pos hc, if_neg hd, hdrop]
          have hsp : ltgtOnly (' ' :: collapseSpTab (d :: t2)) =
              ltgtOnly (collapseSpTab (d :: t2)) := by
            rw [ltgtOnly, List.filter_cons, if_neg (by decide), ← ltgtOnly]
          rw [hsp]
          exact ih
      · rw [if_neg hc]
        simp only [ltgtOnly, List.filter_cons] at ih ⊢
        by_cases hpass : (decide (c = '<') || decide (c = '>')) = true
        · rw [if_pos hpass, if_pos hpass]
          exact List.Sublist.cons₂ c ih
        · rw [if_neg hpass, if_neg hpass]
          exact ih

theorem replaceAll_ltgt_sublist_aux (pat repl : List Char)
    (h1 : '<' ∉ repl) (h2 : '>' ∉ repl) :
    ∀ (n : Nat) (l : List Char), l.length ≤ n →
      List.Sublist (ltgtOnly (replaceAll pat repl l)) (ltgtOnly l) := by
  have hrepl : ltgtOnly repl = [] := by
    rw [ltgtOnly, List.filter_eq_nil_iff]
    intro a ha
    simp only [Bool.or_eq_true, decide_eq_true_eq, not_or]
    exact ⟨fun he => h1 (he ▸ ha), fun he => h2 (he ▸ ha)⟩
  intro n
  induction n with
  | zero =>
    intro l hl
    have h0 : l = [] := List.eq_nil_of_length_eq_zero (Nat.le_zero.mp hl)
    subst h0
    rw [replaceAll]
  | succ n ih =>
    intro l hl
    cases l with
    | nil => rw [replaceAll]
    | cons c t =>
      rw [replaceAll]
      by_cases hp : pat ≠ [] ∧ isPre pat (c :: t) = true
      · rw [if_pos hp]
        rw [ltgtOnly_append, hrepl, List.nil_append]
        have hlen : ((c :: t).drop pat.length).length ≤ n := by
          simp only [List.length_drop, List.length_cons]
          have hp1 : 1 ≤ pat.length := by
            cases hpat : pat with
            | nil => exact absurd hpat hp.1
            | cons x xs => simp
          simp only [List.length_cons] at hl
          omega
        exact (ih _ hlen).trans
          (ltgtOnly_sublist_of_sublist (List.drop_sublist pat.length (c :: t)))
      · rw [if_neg hp]
        have hlen : t.length ≤ n := by simp only [List.length_cons] at hl; omega
        have iht := ih t hlen
        simp only [ltgtOnly, List.filter_cons] at iht ⊢
        by_cases hpass : (decide (c = '<') || decide (c = '>')) = true
        · rw [if_pos hpass, if_pos hpass]
          exact List.Sublist.cons₂ c iht
        · rw [if_neg hpass, if_neg hpass]
          exact iht

theorem replaceAll_ltgt_sublist (pat repl : List Char)
    (h1 : '<' ∉ repl) (h2 : '>' ∉ repl) (l : List Char) :
    List.Sublist (ltgtOnly (replaceAll pat repl l)) (ltgtOnly l) :=
  replaceAll_ltgt_sublist_aux pat repl h1 h2 l.length l (Nat.le_refl _)

theorem noLtBeforeGt_stripTagLike_aux : ∀ (n : Nat) (l : List Char), l.length ≤ n →
    noLtBeforeGt (stripTagLike l) = true := by
  intro n
  induction n with
  | zero =>
    intro l hl
    have h0 : l = [] := List.eq_nil_of_length_eq_zero (Nat.le_zero.mp hl)
    subst h0
    rw [stripTagLike]
    rfl
  | succ n ih =>
    intro l hl
    cases l with
    | nil => rw [stripTagLike]; rfl
    | cons c t =>
      rw [stripTagLike]
      by_cases hc : c = '<'
      · rw [if_pos hc]
        cases hidx : idxOfChar '>' t with
        | some k =>
          refine ih _ ?_
          simp only [List.length_drop]
          simp only [List.length_cons] at hl
          omega
        | none =>
          rw [noLtBeforeGt, if_pos hc]
          simp only [Bool.not_eq_true']
          rw [← Bool.not_eq_true]
          intro hcon
          have hmem : '>' ∈ stripTagLike t := List.elem_iff.mp hcon
          have hsub := stripTagLike_sublist t
          exact idxOfChar_none hidx (hsub.subset hmem)
      · rw [if_neg hc, noLtBeforeGt, if_neg hc]
        exact ih t (by simp only [List.length_cons] at hl; omega)

theorem noLtBeforeGt_stripTagLike (l : List Char) : noLtBeforeGt (stripTagLike l) = true :=
  noLtBeforeGt_stripTagLike_aux l.length l (Nat.le_refl _)

theorem noLtBeforeGt_of_ltgt_sublist {a b : List Char}
    (hsub : List.Sublist (ltgtOnly a) (ltgtOnly b)) (hb : noLtBeforeGt b = true) :
    noLtBeforeGt a = true := by
  rw [noLtBeforeGt_eq_ltgt]
  rw [noLtBeforeGt_eq_ltgt] at hb
  exact noLtBeforeGt_sublist hsub hb

theorem noLtBeforeGt_clean (s : List Char) : noLtBeforeGt (clean_html_content s) = true := by
  simp only [clean_html_content]
  apply noLtBeforeGt_sublist (pyStrip_sublist _)
  apply noLtBeforeGt_sublist (pyStrip_sublist _)
  apply noLtBeforeGt_of_ltgt_sublist (collapse_ltgt_sublist _)
  apply noLtBeforeGt_of_ltgt_sublist (replaceAll_ltgt_sublist _ _ (by decide) (by decide) _)
  apply noLtBeforeGt_of_ltgt_sublist (replaceAll_ltgt_sublist _ _ (by decide) (by decide) _)
  apply noLtBeforeGt_sublist (stripSlashGt_sublist _)
  exact noLtBeforeGt_stripTagLike _

theorem collapse_cons_not {c : Char} (X : List Char) (hc : isSpTab c = false) :
    collapseSpTab (c :: X) = c :: collapseSpTab X := by
  cases X with
  | nil => simp [collapseSpTab, hc]
  | cons d t => simp [collapseSpTab, hc]

theorem collapse_cons_sp_not {c d : Char} (t : List Char) (hc : isSpTab c = true)
    (hd : isSpTab d = false) :
    collapseSpTab (c :: d :: t) = ' ' :: collapseSpTab (d :: t) := by
  simp [collapseSpTab, hc, hd]

theorem collapse_cons_sp_sp {c d : Char} (t : List Char) (hc : isSpTab c = true)
    (hd : isSpTab d = true) :
    collapseSpTab (c :: d :: t) = collapseSpTab (d :: t) := by
  simp [collapseSpTab, hc, hd]

theorem collapse_singleton_sp {c : Char} (hc : isSpTab c = true) :
    collapseSpTab [c] = [' '] := by
  simp [collapseSpTab, hc]

theorem collapse_ne_nil : ∀ {l : List Char}, l ≠ [] → collapseSpTab l ≠ [] := by
  intro l
  induction l with
  | nil => intro h; exact absurd rfl h
  | cons c t ih =>
    intro _
    cases t with
    | nil =>
      by_cases hc : isSpTab c = true
      · rw [collapse_singleton_sp hc]; simp
      · rw [collapse_cons_not [] (Bool.eq_false_iff.mpr hc)]; simp
    | cons d t2 =>
      by_cases hc : isSpTab c = true
      · by_cases hd : isSpTab d = true
        · rw [collapse_cons_sp_sp t2 hc hd]
          exact ih (by simp)
        · rw [collapse_cons_sp_not t2 hc (Bool.eq_false_iff.mpr hd)]; simp
      · rw [collapse_cons_not (d :: t2) (Bool.eq_false_iff.mpr hc)]; simp

theorem collapse_mem : ∀ {l : List Char} {c : Char}, c ∈ collapseSpTab l → c ∈ l ∨ c = ' ' := by
  intro l
  induction l with
  | nil => intro c h; rw [collapseSpTab] at h; simp at h
  | cons a t ih =>
    intro c h
    cases t with
    | nil =>
      by_cases ha : isSpTab a = true
      · rw [collapse_singleton_sp ha] at h
        right
        simpa using h
      · rw [collapse_cons_not [] (Bool.eq_false_iff.mpr ha), collapseSpTab] at h
        left
        simpa using h
    | cons d t2 =>
      by_cases ha : isSpTab a = true
      · by_cases hd : isSpTab d = true
        · rw [collapse_cons_sp_sp t2 ha hd] at h
          rcases ih h with hm | he
          · exact Or.inl (List.mem_cons_of_mem a hm)
          · exact Or.inr he
        · rw [collapse_cons_sp_not t2 ha (Bool.eq_false_iff.mpr hd)] at h
          rcases List.mem_cons.mp h with he | hm
          · exact Or.inr he
          · rcases ih hm with hm2 | he2
            · exact Or.inl (List.mem_cons_of_mem a hm2)
            · exact Or.inr he2
      · rw [collapse_cons_not (d :: t2) (Bool.eq_false_iff.mpr ha)] at h
        rcases List.mem_cons.mp h with he | hm
        · exact Or.inl (he ▸ List.mem_cons_self a _)
        · rcases ih hm with hm2 | he2
          · exact Or.inl (List.mem_cons_of_mem a hm2)
          · exact Or.inr he2

theorem collapse_idem : ∀ (l : List Char), collapseSpTab (collapseSpTab l) = collapseSpTab l := by
  intro l
  induction l with
  | nil => rfl
  | cons a t ih =>
    cases t with
    | nil =>
      by_cases ha : isSpTab a = true
      · rw [collapse_singleton_sp ha, collapse_singleton_sp (by decide)]
      · have ha2 := Bool.eq_false_iff.mpr ha
        rw [collapse_cons_not [] ha2]
        rw [show collapseSpTab ([] : List Char) = [] from rfl]
        rw [collapse_cons_not [] ha2]
        rw [show collapseSpTab ([] : List Char) = [] from rfl]
    | cons d t2 =>
      by_cases ha : isSpTab a = true
      · by_cases hd : isSpTab d = true
        · rw [collapse_cons_sp_sp t2 ha hd]
          exact ih
        · have hd2 := Bool.eq_false_iff.mpr hd
          rw [collapse_cons_sp_not t2 ha hd2]
          rw [collapse_cons_not t2 hd2] at ih ⊢
          rw [collapse_cons_sp_not (collapseSpTab t2) (by decide) hd2]
          rw [collapse_cons_not (collapseSpTab t2) hd2] at ih ⊢
          rw [List.cons.injEq] at ih
          rw [ih.2]
      · have ha2 := Bool.eq_false_iff.mpr ha
        rw [collapse_cons_not (d :: t2) ha2,
          collapse_cons_not (collapseSpTab (d :: t2)) ha2, ih]

theorem collapse_append_nl : ∀ (a b : List Char),
    collapseSpTab (a ++ '\n' :: b) = collapseSpTab a ++ '\n' :: collapseSpTab b := by
  intro a b
  induction a with
  | nil =>
    rw [List.nil_append, collapse_cons_not b (by decide), collapseSpTab, List.nil_append]
  | cons c a2 ih =>
    by_cases hc : isSpTab c = true
    · cases a2 with
      | nil =>
        rw [List.cons_append, List.nil_append, collapse_cons_sp_not b hc (by decide),
          collapse_singleton_sp hc, collapse_cons_not b (by decide), List.cons_append,
          List.nil_append]
      | cons d a3 =>
        by_cases hd : isSpTab d = true
        · rw [List.cons_append, List.cons_append, collapse_cons_sp_sp _ hc hd,
            ← List.cons_append, ih, collapse_cons_sp_sp a3 hc hd]
        · rw [List.cons_append, List.cons_append,
            collapse_cons_sp_not _ hc (Bool.eq_false_iff.mpr hd), ← List.cons_append, ih,
            collapse_cons_sp_not a3 hc (Bool.eq_false_iff.mpr hd), List.cons_append]
    · rw [List.cons_append, collapse_cons_not _ (Bool.eq_false_iff.mpr hc), ih,
        collapse_cons_not a2 (Bool.eq_false_iff.mpr hc), List.cons_append]

theorem dropWhile_head_false {p : Char → Bool} : ∀ {l : List Char} {c : Char},
    (l.dropWhile p).head? = some c → p c = false := by
  intro l
  induction l with
  | nil => intro c h; simp [List.dropWhile] at h
  | cons a t ih =>
    intro c h
    rw [List.dropWhile_cons] at h
    by_cases hp : p a = true
    · rw [if_pos hp] at h
      exact ih h
    · rw [if_neg hp] at h
      simp only [List.head?_cons, Option.some.injEq] at h
      subst h
      exact Bool.eq_false_iff.mpr hp

theorem getLast?_reverse_eq (l : List Char) : l.reverse.getLast? = l.head? := by
  have h := List.head?_reverse l.reverse
  rw [List.reverse_reverse] at h
  exact h.symm

theorem pyStrip_last_not_ws {l : List Char} {c : Char}
    (h : (pyStrip l).getLast? = some c) : pyIsSpaceB c = false := by
  rw [pyStrip, getLast?_reverse_eq] at h
  exact dropWhile_head_false h

theorem pyStrip_head_not_ws {l : List Char} {c : Char}
    (h : (pyStrip l).head? = some c) : pyIsSpaceB c = false := by
  rw [pyStrip, List.head?_reverse] at h
  obtain ⟨u, hu⟩ :=
    List.dropWhile_suffix (l := (l.dropWhile pyIsSpaceB).reverse) pyIsSpaceB
  have hne : (l.dropWhile pyIsSpaceB).reverse.dropWhile pyIsSpaceB ≠ [] := by
    intro h0
    rw [h0] at h
    simp at h
  have hlast : ((l.dropWhile pyIsSpaceB).reverse.dropWhile pyIsSpaceB).getLast? =
      (l.dropWhile pyIsSpaceB).reverse.getLast? := by
    conv_rhs => rw [← hu]
    rw [List.getLast?_append_of_ne_nil u hne]
  rw [hlast, getLast?_reverse_eq] at h
  exact dropWhile_head_false h

theorem dropWhile_eq_self_of_head {p : Char → Bool} {l : List Char}
    (h : ∀ c, l.head? = some c → p c = false) : l.dropWhile p = l := by
  cases l with
  | nil => rfl
  | cons a t =>
    rw [List.dropWhile_cons, if_neg]
    rw [h a rfl]
    exact Bool.false_ne_true

theorem pyStrip_eq_self {l : List Char}
    (hh : ∀ c, l.head? = some c → pyIsSpaceB c = false)
    (hl : ∀ c, l.getLast? = some c → pyIsSpaceB c = false) :
    pyStrip l = l := by
  rw [pyStrip, dropWhile_eq_self_of_head hh, dropWhile_eq_self_of_head, List.reverse_reverse]
  intro c hc
  rw [List.head?_reverse] at hc
  exact hl c hc

theorem joinNl_cons_cons (p q : List Char) (ps : List (List Char)) :
    joinNlLines (p :: q :: ps) = p ++ '\n' :: joinNlLines (q :: ps) := by
  rw [joinNlLines]

theorem joinNl_ne_nil {p : List Char} (ps : List (List Char)) (hp : p ≠ []) :
    joinNlLines (p :: ps) ≠ [] := by
  cases ps with
  | nil => rw [joinNlLines]; exact hp
  | cons q ps2 =>
    rw [joinNl_cons_cons]
    simp

theorem joinNl_mem : ∀ {ps : List (List Char)} {c : Char}, c ∈ joinNlLines ps →
    c = '\n' ∨ ∃ p ∈ ps, c ∈ p := by
  intro ps
  induction ps with
  | nil => intro c h; rw [joinNlLines] at h; simp at h
  | cons p rest ih =>
    intro c h
    cases rest with
    | nil =>
      rw [joinNlLines] at h
      exact Or.inr ⟨p, List.mem_singleton_self p, h⟩
    | cons q ps2 =>
      rw [joinNl_cons_cons] at h
      rcases List.mem_append.mp h with hm | hm
      · exact Or.inr ⟨p, List.mem_cons_self p _, hm⟩
      · rcases List.mem_cons.mp hm with he | hm2
        · exact Or.inl he
        · rcases ih hm2 with he2 | ⟨r, hr, hcr⟩
          · exact Or.inl he2
          · exact Or.inr ⟨r, List.mem_cons_of_mem p hr, hcr⟩

theorem joinNl_head_not_ws : ∀ (ps : List (List Char)),
    (∀ p ∈ ps, p ≠ []) →
    (∀ p ∈ ps, ∀ c, p.head? = some c → pyIsSpaceB c = false) →
    ∀ c, (joinNlLines ps).head? = some c → pyIsSpaceB c = false := by
  intro ps
  induction ps with
  | nil => intro _ _ c h; rw [joinNlLines] at h; simp at h
  | cons p rest ih =>
    intro hne hws c h
    cases rest with
    | nil =>
      rw [joinNlLines] at h
      exact hws p (List.mem_singleton_self p) c h
    | cons q ps2 =>
      rw [joinNl_cons_cons,
        List.head?_append_of_ne_nil _ (hne p (List.mem_cons_self p _))] at h
      exact hws p (List.mem_cons_self p _) c h

theorem joinNl_getLast_not_ws : ∀ (ps : List (List Char)),
    (∀ p ∈ ps, p ≠ []) →
    (∀ p ∈ ps, ∀ c, p.getLast? = some c → pyIsSpaceB c = false) →
    ∀ c, (joinNlLines ps).getLast? = some c → pyIsSpaceB c = false := by
  intro ps
  induction ps with
  | nil => intro _ _ c h; rw [joinNlLines] at h; simp at h
  | cons p rest ih =>
    intro hne hws c h
    cases rest with
    | nil =>
      rw [joinNlLines] at h
      exact hws p (List.mem_singleton_self p) c h
    | cons q ps2 =>
      rw [joinNl_cons_cons] at h
      have hJ : joinNlLines (q :: ps2) ≠ [] :=
        joinNl_ne_nil ps2 (hne q (List.mem_cons_of_mem p (List.mem_cons_self q _)))
      have hsplit : p ++ '\n' :: joinNlLines (q :: ps2) =
          (p ++ ['\n']) ++ joinNlLines (q :: ps2) := by
        rw [List.append_assoc]
        rfl
      rw [hsplit, List.getLast?_append_of_ne_nil _ hJ] at h
      refine ih (fun r hr => hne r (List.mem_cons_of_mem p hr))
        (fun r hr => hws r (List.mem_cons_of_mem p hr)) c h

theorem splitlinesGo_break_free_eq : ∀ (l : List Char) (acc : List Char),
    (∀ c ∈ l, isLineBreakB c = false) → splitlinesGo acc l = [acc.reverse ++ l] := by
  intro l
  induction l with
  | nil => intro acc _; rw [splitlinesGo, List.append_nil]
  | cons c t ih =>
    intro acc hbf
    rw [splitlinesGo, if_neg (by rw [hbf c (List.mem_cons_self c t)]; exact Bool.false_ne_true),
      ih (c :: acc) (fun d hd => hbf d (List.mem_cons_of_mem c hd))]
    rw [List.reverse_cons, List.append_assoc]
    rfl

theorem splitlinesGo_append_nl : ∀ (p : List Char) (J : List Char) (acc : List Char),
    (∀ c ∈ p, isLineBreakB c = false) → J ≠ [] →
    splitlinesGo acc (p ++ '\n' :: J) = (acc.reverse ++ p) :: splitlinesGo [] J := by
  intro p
  induction p with
  | nil =>
    intro J acc _ hJ
    rw [List.nil_append, splitlinesGo, if_pos (by decide)]
    simp only [show (decide (('\n' : Char) = '\x0d')) = false from by decide, Bool.false_and,
      Bool.false_eq_true, if_false]
    rw [if_neg (by simpa using hJ), List.append_nil]
  | cons c p2 ih =>
    intro J acc hbf hJ
    rw [List.cons_append, splitlinesGo,
      if_neg (by rw [hbf c (List.mem_cons_self c p2)]; exact Bool.false_ne_true),
      ih J (c :: acc) (fun d hd => hbf d (List.mem_cons_of_mem c hd)) hJ]
    rw [List.reverse_cons, List.append_assoc]
    rfl

theorem pySplitlines_single {p : List Char} (hp : p ≠ [])
    (hbf : ∀ c ∈ p, isLineBreakB c = false) : pySplitlines p = [p] := by
  cases p with
  | nil => exact absurd rfl hp
  | cons c t =>
    rw [pySplitlines]
    rw [splitlinesGo_break_free_eq (c :: t) [] hbf]
    rfl

theorem pySplitlines_joinNl : ∀ (ps : List (List Char)), ps ≠ [] →
    (∀ p ∈ ps, p ≠ []) → (∀ p ∈ ps, ∀ c ∈ p, isLineBreakB c = false) →
    pySplitlines (joinNlLines ps) = ps := by
  intro ps
  induction ps with
  | nil => intro h; exact absurd rfl h
  | cons p rest ih =>
    intro _ hne hbf
    cases rest with
    | nil =>
      rw [joinNlLines]
      exact pySplitlines_single (hne p (List.mem_singleton_self p))
        (hbf p (List.mem_singleton_self p))
    | cons q ps2 =>
      rw [joinNl_cons_cons]
      have hp : p ≠ [] := hne p (List.mem_cons_self p _)
      have hJ : joinNlLines (q :: ps2) ≠ [] :=
        joinNl_ne_nil ps2 (hne q (List.mem_cons_of_mem p (List.mem_cons_self q _)))
      have hjoin : p ++ '\n' :: joinNlLines (q :: ps2) ≠ [] := by simp
      have hrw : pySplitlines (p ++ '\n' :: joinNlLines (q :: ps2)) =
          splitlinesGo [] (p ++ '\n' :: joinNlLines (q :: ps2)) := by
        cases hsh : p ++ '\n' :: joinNlLines (q :: ps2) with
        | nil => exact absurd hsh hjoin
        | cons x xs => rw [pySplitlines]
      rw [hrw, splitlinesGo_append_nl p _ [] (hbf p (List.mem_cons_self p _)) hJ]
      have hrest : splitlinesGo [] (joinNlLines (q :: ps2)) =
          pySplitlines (joinNlLines (q :: ps2)) := by
        cases hsh : joinNlLines (q :: ps2) with
        | nil => exact absurd hsh hJ
        | cons x xs => rw [pySplitlines]
      rw [hrest, ih (by simp) (fun r hr => hne r (List.mem_cons_of_mem p hr))
        (fun r hr => hbf r (List.mem_cons_of_mem p hr))]
      rw [List.reverse_nil, List.nil_append]

theorem splitlinesGo_pieces : ∀ (n : Nat) (l : List Char), l.length ≤ n →
    ∀ (acc : List Char) (p : List Char), p ∈ splitlinesGo acc l → ∀ c ∈ p,
      (c ∈ acc ∨ c ∈ l) ∧ (isLineBreakB c = false ∨ c ∈ acc) := by
  intro n
  induction n with
  | zero =>
    intro l hl acc p hp c hc
    have h0 : l = [] := List.eq_nil_of_length_eq_zero (Nat.le_zero.mp hl)
    subst h0
    rw [splitlinesGo] at hp
    have hpe : p = acc.reverse := List.mem_singleton.mp hp
    subst hpe
    rw [List.mem_reverse] at hc
    exact ⟨Or.inl hc, Or.inr hc⟩
  | succ n ih =>
    intro l hl acc p hp c hc
    cases l with
    | nil =>
      rw [splitlinesGo] at hp
      have hpe : p = acc.reverse := List.mem_singleton.mp hp
      subst hpe
      rw [List.mem_reverse] at hc
      exact ⟨Or.inl hc, Or.inr hc⟩
    | cons a t =>
      rw [splitlinesGo] at hp
      by_cases hbr : isLineBreakB a = true
      · rw [if_pos hbr] at hp
        simp only [] at hp
        set r := if (decide (a = '\x0d') && decide (t.head? = some '\n')) = true
          then t.tail else t with hrdef
        have hrsub : ∀ d ∈ r, d ∈ t := by
          intro d hd
          rw [hrdef] at hd
          by_cases hcnd : (decide (a = '\x0d') && decide (t.head? = some '\n')) = true
          · rw [if_pos hcnd] at hd
            exact List.mem_of_mem_tail hd
          · rw [if_neg hcnd] at hd
            exact hd
        have hrlen : r.length ≤ n := by
          have : r.length ≤ t.length := by
            rw [hrdef]
            by_cases hcnd : (decide (a = '\x0d') && decide (t.head? = some '\n')) = true
            · rw [if_pos hcnd, List.length_tail]
              omega
            · rw [if_neg hcnd]
          simp only [List.length_cons] at hl
          omega
        by_cases hre : r.isEmpty = true
        · rw [if_pos hre] at hp
          have hpe : p = acc.reverse := List.mem_singleton.mp hp
          subst hpe
          rw [List.mem_reverse] at hc
          exact ⟨Or.inl hc, Or.inr hc⟩
        · rw [if_neg hre] at hp
          rcases List.mem_cons.mp hp with hpe | hp2
          · subst hpe
            rw [List.mem_reverse] at hc
            exact ⟨Or.inl hc, Or.inr hc⟩
          · have := ih r hrlen [] p hp2 c hc
            rcases this with ⟨h1, h2⟩
            refine ⟨?_, ?_⟩
            · rcases h1 with hx | hx
              · simp at hx
              · exact Or.inr (List.mem_cons_of_mem a (hrsub c hx))
            · rcases h2 with hx | hx
              · exact Or.inl hx
              · simp at hx
      · rw [if_neg hbr] at hp
        have := ih t (by simp only [List.length_cons] at hl; omega) (a :: acc) p hp c hc
        rcases this with ⟨h1, h2⟩
        refine ⟨?_, ?_⟩
        · rcases h1 with hx | hx
          · rcases List.mem_cons.mp hx with he | hx2
            · exact Or.inr (he ▸ List.mem_cons_self a t)
            · exact Or.inl hx2
          · exact Or.inr (List.mem_cons_of_mem a hx)
        · rcases h2 with hx | hx
          · exact Or.inl hx
          · rcases List.mem_cons.mp hx with he | hx2
            · subst he
              exact Or.inl (Bool.eq_false_iff.mpr hbr)
            · exact Or.inr hx2

theorem pySplitlines_pieces {l : List Char} {p : List Char} (hp : p ∈ pySplitlines l) :
    ∀ c ∈ p, c ∈ l ∧ isLineBreakB c = false := by
  intro c hc
  cases l with
  | nil => rw [pySplitlines] at hp; simp at hp
  | cons a t =>
    rw [pySplitlines] at hp
    have := splitlinesGo_pieces (a :: t).length (a :: t) (Nat.le_refl _) [] p hp c hc
    rcases this with ⟨h1, h2⟩
    refine ⟨?_, ?_⟩
    · rcases h1 with hx | hx
      · simp at hx
      · exact hx
    · rcases h2 with hx | hx
      · exact hx
      · simp at hx

theorem isPre_mem : ∀ {p l : List Char}, isPre p l = true → ∀ c ∈ p, c ∈ l := by
  intro p
  induction p with
  | nil => intro l _ c hc; simp at hc
  | cons a as_ ih =>
    intro l h c hc
    cases l with
    | nil => simp [isPre] at h
    | cons b bs =>
      simp only [isPre, Bool.and_eq_true, decide_eq_true_eq] at h
      rcases List.mem_cons.mp hc with he | hm
      · exact he ▸ h.1 ▸ List.mem_cons_self b bs
      · exact List.mem_cons_of_mem b (ih h.2 c hm)

theorem containsSub_mem : ∀ {l pat : List Char}, containsSub l pat = true → ∀ c ∈ pat, c ∈ l := by
  intro l
  induction l with
  | nil =>
    intro pat h c hc
    rw [containsSub] at h
    simp only [Bool.or_false] at h
    exact isPre_mem h c hc
  | cons a t ih =>
    intro pat h c hc
    rw [containsSub] at h
    rcases Bool.or_eq_true_iff.mp h with h1 | h2
    · exact isPre_mem h1 c hc
    · exact List.mem_cons_of_mem a (ih h2 c hc)

theorem containsSub_false_of_not_mem {l pat : List Char} {c : Char} (hc : c ∈ pat)
    (hl : c ∉ l) : containsSub l pat = false := by
  rw [← Bool.not_eq_true]
  intro h
  exact hl (containsSub_mem h c hc)

theorem replaceAll_id_aux (pat repl : List Char) : ∀ (n : Nat) (l : List Char), l.length ≤ n →
    containsSub l pat = false → replaceAll pat repl l = l := by
  intro n
  induction n with
  | zero =>
    intro l hl _
    have h0 : l = [] := List.eq_nil_of_length_eq_zero (Nat.le_zero.mp hl)
    subst h0
    rw [replaceAll]
  | succ n ih =>
    intro l hl hcs
    cases l with
    | nil => rw [replaceAll]
    | cons c t =>
      rw [containsSub] at hcs
      rw [Bool.or_eq_false_iff] at hcs
      rw [replaceAll, if_neg (fun hx => by rw [hcs.1] at hx; exact Bool.false_ne_true hx.2)]
      rw [ih t (by simp only [List.length_cons] at hl; omega) hcs.2]

theorem replaceAll_id {pat repl l : List Char} (h : containsSub l pat = false) :
    replaceAll pat repl l = l :=
  replaceAll_id_aux pat repl l.length l (Nat.le_refl _) h

theorem idxOfChar_none_of_not_mem {ch : Char} : ∀ {l : List Char}, ch ∉ l →
    idxOfChar ch l = none := by
  intro l
  induction l with
  | nil => intro _; rw [idxOfChar]
  | cons c t ih =>
    intro h
    rw [idxOfChar, if_neg (fun (he : c = ch) => h (he ▸ List.mem_cons_self c t)),
      ih (fun hm => h (List.mem_cons_of_mem c hm))]
    rfl

theorem stripTagLike_id_aux : ∀ (n : Nat) (l : List Char), l.length ≤ n → '<' ∉ l →
    stripTagLike l = l := by
  intro n
  induction n with
  | zero =>
    intro l hl _
    have h0 : l = [] := List.eq_nil_of_length_eq_zero (Nat.le_zero.mp hl)
    subst h0
    rw [stripTagLike]
  | succ n ih =>
    intro l hl hm
    cases l with
    | nil => rw [stripTagLike]
    | cons c t =>
      rw [stripTagLike, if_neg (fun (he : c = '<') => hm (he ▸ List.mem_cons_self c t)),
        ih t (by simp only [List.length_cons] at hl; omega)
          (fun hx => hm (List.mem_cons_of_mem c hx))]

theorem stripSlashGt_id_aux : ∀ (n : Nat) (l : List Char), l.length ≤ n → '>' ∉ l →
    stripSlashGt l = l := by
  intro n
  induction n with
  | zero =>
    intro l hl _
    have h0 : l = [] := List.eq_nil_of_length_eq_zero (Nat.le_zero.mp hl)
    subst h0
    rw [stripSlashGt]
  | succ n ih =>
    intro l hl hm
    have hmt : ∀ (t : List Char), List.Sublist t l → '>' ∉ t :=
      fun t hs hx => hm (hs.subset hx)
    cases l with
    | nil => rw [stripSlashGt]
    | cons c t =>
      have iht := ih t (by simp only [List.length_cons] at hl; omega)
        (hmt t (List.sublist_cons_self c t))
      rw [stripSlashGt]
      by_cases hc : c = '/'
      · rw [if_pos hc, idxOfChar_none_of_not_mem (hmt t (List.sublist_cons_self c t)), iht]
      · rw [if_neg hc, iht]

theorem bsGetText_id_aux : ∀ (n : Nat) (l : List Char), l.length ≤ n → '&' ∉ l → '<' ∉ l →
    bsGetText l = l := by
  intro n
  induction n with
  | zero =>
    intro l hl _ _
    have h0 : l = [] := List.eq_nil_of_length_eq_zero (Nat.le_zero.mp hl)
    subst h0
    rw [bsGetText]
  | succ n ih =>
    intro l hl hamp hlt
    cases l with
    | nil => rw [bsGetText]
    | cons c t =>
      rw [bsGetText, if_neg (fun (he : c = '&') => hamp (he ▸ List.mem_cons_self c t)),
        if_neg (fun (he : c = '<') => hlt (he ▸ List.mem_cons_self c t)),
        ih t (by simp only [List.length_cons] at hl; omega)
          (fun hx => hamp (List.mem_cons_of_mem c hx))
          (fun hx => hlt (List.mem_cons_of_mem c hx))]

theorem isSpTab_ws {c : Char} (h : isSpTab c = true) : pyIsSpaceB c = true := by
  rw [isSpTab] at h
  rcases Bool.or_eq_true_iff.mp h with h1 | h2
  · rw [decide_eq_true_eq] at h1
    subst h1
    decide
  · rw [decide_eq_true_eq] at h2
    subst h2
    decide

theorem collapse_head_not_ws {X : List Char}
    (h : ∀ c, X.head? = some c → pyIsSpaceB c = false) :
    ∀ c, (collapseSpTab X).head? = some c → pyIsSpaceB c = false := by
  intro c hc
  cases X with
  | nil => rw [collapseSpTab] at hc; simp at hc
  | cons a t =>
    have ha : pyIsSpaceB a = false := h a rfl
    have hsp : isSpTab a = false := by
      rw [← Bool.not_eq_true]
      intro hx
      rw [isSpTab_ws hx] at ha
      exact absurd ha (by simp)
    rw [collapse_cons_not t hsp] at hc
    simp only [List.head?_cons, Option.some.injEq] at hc
    subst hc
    exact ha

theorem collapse_getLast_some : ∀ (l : List Char) (z : Char), l.getLast? = some z →
    isSpTab z = false → (collapseSpTab l).getLast? = some z := by
  intro l
  induction l with
  | nil => intro z h _; simp at h
  | cons a t ih =>
    intro z h hz
    cases t with
    | nil =>
      simp only [List.getLast?_singleton, Option.some.injEq] at h
      subst h
      rw [collapse_cons_not [] hz]
      rfl
    | cons d t2 =>
      have hlast : (a :: d :: t2).getLast? = (d :: t2).getLast? := rfl
      rw [hlast] at h
      have ihz := ih z h hz
      have hne : collapseSpTab (d :: t2) ≠ [] := collapse_ne_nil (by simp)
      by_cases ha : isSpTab a = true
      · by_cases hd : isSpTab d = true
        · rw [collapse_cons_sp_sp t2 ha hd]
          exact ihz
        · rw [collapse_cons_sp_not t2 ha (Bool.eq_false_iff.mpr hd)]
          cases hcol : collapseSpTab (d :: t2) with
          | nil => exact absurd hcol hne
          | cons y ys =>
            rw [hcol] at ihz
            rw [show (' ' :: y :: ys).getLast? = (y :: ys).getLast? from rfl]
            exact ihz
      · rw [collapse_cons_not (d :: t2) (Bool.eq_false_iff.mpr ha)]
        cases hcol : collapseSpTab (d :: t2) with
        | nil => exact absurd hcol hne
        | cons y ys =>
          rw [hcol] at ihz
          rw [show (a :: y :: ys).getLast? = (y :: ys).getLast? from rfl]
          exact ihz

theorem collapse_getLast_not_ws {X : List Char}
    (h : ∀ c, X.getLast? = some c → pyIsSpaceB c = false) :
    ∀ c, (collapseSpTab X).getLast? = some c → pyIsSpaceB c = false := by
  intro c hc
  cases X with
  | nil => rw [collapseSpTab] at hc; simp at hc
  | cons a t =>
    obtain ⟨z, hz⟩ : ∃ z, (a :: t).getLast? = some z := by
      cases hx : (a :: t).getLast? with
      | none => exact absurd (List.getLast?_eq_none_iff.mp hx) (by simp)
      | some z => exact ⟨z, rfl⟩
    have hzws : pyIsSpaceB z = false := h z hz
    have hzsp : isSpTab z = false := by
      rw [← Bool.not_eq_true]
      intro hx
      rw [isSpTab_ws hx] at hzws
      exact absurd hzws (by simp)
    rw [collapse_getLast_some (a :: t) z hz hzsp] at hc
    simp only [Option.some.injEq] at hc
    subst hc
    exact hzws

theorem normalizeLines_mem {s : List Char} {c : Char} (h : c ∈ normalizeLines s) :
    c ∈ s ∨ c = ' ' ∨ c = '\n' := by
  rw [normalizeLines] at h
  rcases collapse_mem h with h1 | he
  · rcases joinNl_mem h1 with he2 | ⟨p, hp, hcp⟩
    · exact Or.inr (Or.inr he2)
    · have hp2 : p ∈ (pySplitlines s).map pyStrip := List.mem_of_mem_filter hp
      obtain ⟨q, hq, hqe⟩ := List.mem_map.mp hp2
      subst hqe
      have hcq : c ∈ q := (pyStrip_sublist q).subset hcp
      exact Or.inl (pySplitlines_pieces hq c hcq).1
  · exact Or.inr (Or.inl he)

theorem lines_of_ne_nil {s : List Char} {p : List Char}
    (hp : p ∈ ((pySplitlines s).map pyStrip).filter (fun line => !line.isEmpty)) :
    p ≠ [] := by
  have := List.of_mem_filter hp
  simp only [Bool.not_eq_true'] at this
  intro he
  subst he
  simp at this

theorem lines_of_head_not_ws {s : List Char} {p : List Char}
    (hp : p ∈ ((pySplitlines s).map pyStrip).filter (fun line => !line.isEmpty)) :
    ∀ c, p.head? = some c → pyIsSpaceB c = false := by
  have hp2 := List.mem_of_mem_filter hp
  obtain ⟨q, _, hqe⟩ := List.mem_map.mp hp2
  subst hqe
  intro c hc
  exact pyStrip_head_not_ws hc

theorem lines_of_getLast_not_ws {s : List Char} {p : List Char}
    (hp : p ∈ ((pySplitlines s).map pyStrip).filter (fun line => !line.isEmpty)) :
    ∀ c, p.getLast? = some c → pyIsSpaceB c = false := by
  have hp2 := List.mem_of_mem_filter hp
  obtain ⟨q, _, hqe⟩ := List.mem_map.mp hp2
  subst hqe
  intro c hc
  exact pyStrip_last_not_ws hc

theorem normalizeLines_head_not_ws (s : List Char) :
    ∀ c, (normalizeLines s).head? = some c → pyIsSpaceB c = false := by
  rw [normalizeLines]
  exact collapse_head_not_ws
    (joinNl_head_not_ws _ (fun p hp => lines_of_ne_nil hp)
      (fun p hp => lines_of_head_not_ws hp))

theorem normalizeLines_getLast_not_ws (s : List Char) :
    ∀ c, (normalizeLines s).getLast? = some c → pyIsSpaceB c = false := by
  rw [normalizeLines]
  exact collapse_getLast_not_ws
    (joinNl_getLast_not_ws _ (fun p hp => lines_of_ne_nil hp)
      (fun p hp => lines_of_getLast_not_ws hp))

theorem clean_eq_normalize {s : List Char}
    (h1 : '&' ∉ s) (h2 : '<' ∉ s) (h3 : '>' ∉ s) (h4 : '#' ∉ s) (h5 : '"' ∉ s) :
    clean_html_content s = normalizeLines s := by
  have hbs : bsGetText s = s := bsGetText_id_aux s.length s (Nat.le_refl _) h1 h2
  have hT : ∀ (ch : Char), ch ∈ normalizeLines s → ch ∈ s ∨ ch = ' ' ∨ ch = '\n' :=
    fun ch hch => normalizeLines_mem hch
  have hnot : ∀ (ch : Char), ch ≠ ' ' → ch ≠ '\n' → ch ∉ s → ch ∉ normalizeLines s := by
    intro ch hsp hnl hs hmem
    rcases hT ch hmem with hx | hx | hx
    · exact hs hx
    · exact hsp hx
    · exact hnl hx
  have hamp : '&' ∉ normalizeLines s := hnot '&' (by decide) (by decide) h1
  have hlt : '<' ∉ normalizeLines s := hnot '<' (by decide) (by decide) h2
  have hgt : '>' ∉ normalizeLines s := hnot '>' (by decide) (by decide) h3
  have hhash : '#' ∉ normalizeLines s := hnot '#' (by decide) (by decide) h4
  have hquot : '"' ∉ normalizeLines s := hnot '"' (by decide) (by decide) h5
  have hid : ∀ (pat repl : List Char) (ch : Char), ch ∈ pat → ch ∉ normalizeLines s →
      replaceAll pat repl (normalizeLines s) = normalizeLines s :=
    fun pat repl ch hch hnm => replaceAll_id (containsSub_false_of_not_mem hch hnm)
  simp only [clean_html_content, hbs]
  rw [show collapseSpTab (joinNlLines (((pySplitlines s).map pyStrip).filter
      (fun line => !line.isEmpty))) = normalizeLines s from by rw [normalizeLines]]
  rw [hid "&nbsp;".toList [' '] '&' (by decide) hamp,
    hid "&amp;".toList ['&'] '&' (by decide) hamp,
    hid "&lt;".toList ['<'] '&' (by decide) hamp,
    hid "&gt;".toList ['>'] '&' (by decide) hamp,
    hid "&quot;".toList ['"'] '&' (by decide) hamp,
    hid "&apos;".toList [Char.ofNat 39] '&' (by decide) hamp,
    hid "&#160;".toList [' '] '&' (by decide) hamp,
    hid "&#8217;".toList [Char.ofNat 0x2019] '&' (by decide) hamp,
    hid "&#8211;".toList ['-'] '&' (by decide) hamp,
    hid "&#8212;".toList ['-', '-'] '&' (by decide) hamp,
    stripTagLike_id_aux (normalizeLines s).length _ (Nat.le_refl _) hlt,
    stripSlashGt_id_aux (normalizeLines s).length _ (Nat.le_refl _) hgt,
    hid "#160;".toList [' '] '#' (by decide) hhash,
    hid "br clear=\"none\"".toList [] '"' (by decide) hquot]
  rw [show collapseSpTab (normalizeLines s) = normalizeLines s from by
    rw [normalizeLines]; exact collapse_idem _]
  rw [pyStrip_eq_self (normalizeLines_head_not_ws s) (normalizeLines_getLast_not_ws s),
    pyStrip_eq_self (normalizeLines_head_not_ws s) (normalizeLines_getLast_not_ws s)]

theorem map_eq_self_of {f : List Char → List Char} : ∀ {l : List (List Char)},
    (∀ a ∈ l, f a = a) → l.map f = l := by
  intro l
  induction l with
  | nil => intro _; rfl
  | cons a t ih =>
    intro h
    rw [List.map_cons, h a (List.mem_cons_self a t),
      ih (fun b hb => h b (List.mem_cons_of_mem a hb))]

theorem collapse_joinNl : ∀ (ps : List (List Char)),
    collapseSpTab (joinNlLines ps) = joinNlLines (ps.map collapseSpTab) := by
  intro ps
  induction ps with
  | nil => rfl
  | cons p rest ih =>
    cases rest with
    | nil => rw [joinNlLines, List.map_cons, List.map_nil, joinNlLines]
    | cons q ps2 =>
      rw [joinNl_cons_cons, collapse_append_nl, ih]
      simp only [List.map_cons, joinNl_cons_cons]

theorem normalizeLines_eq_joinNl (s : List Char) :
    normalizeLines s = joinNlLines
      ((((pySplitlines s).map pyStrip).filter (fun line => !line.isEmpty)).map collapseSpTab) := by
  rw [normalizeLines, collapse_joinNl]

theorem lines2_ne_nil {s : List Char} {p : List Char}
    (hp : p ∈ (((pySplitlines s).map pyStrip).filter (fun line => !line.isEmpty)).map
      collapseSpTab) : p ≠ [] := by
  obtain ⟨q, hq, hqe⟩ := List.mem_map.mp hp
  subst hqe
  exact collapse_ne_nil (lines_of_ne_nil hq)

theorem lines2_break_free {s : List Char} {p : List Char}
    (hp : p ∈ (((pySplitlines s).map pyStrip).filter (fun line => !line.isEmpty)).map
      collapseSpTab) : ∀ c ∈ p, isLineBreakB c = false := by
  obtain ⟨q, hq, hqe⟩ := List.mem_map.mp hp
  subst hqe
  intro c hc
  rcases collapse_mem hc with hm | he
  · have hq2 := List.mem_of_mem_filter hq
    obtain ⟨r, hr, hre⟩ := List.mem_map.mp hq2
    subst hre
    exact (pySplitlines_pieces hr c ((pyStrip_sublist r).subset hm)).2
  · subst he
    decide

theorem lines2_head_not_ws {s : List Char} {p : List Char}
    (hp : p ∈ (((pySplitlines s).map pyStrip).filter (fun line => !line.isEmpty)).map
      collapseSpTab) : ∀ c, p.head? = some c → pyIsSpaceB c = false := by
  obtain ⟨q, hq, hqe⟩ := List.mem_map.mp hp
  subst hqe
  exact collapse_head_not_ws (lines_of_head_not_ws hq)

theorem lines2_getLast_not_ws {s : List Char} {p : List Char}
    (hp : p ∈ (((pySplitlines s).map pyStrip).filter (fun line => !line.isEmpty)).map
      collapseSpTab) : ∀ c, p.getLast? = some c → pyIsSpaceB c = false := by
  obtain ⟨q, hq, hqe⟩ := List.mem_map.mp hp
  subst hqe
  exact collapse_getLast_not_ws (lines_of_getLast_not_ws hq)

theorem pySplitlines_normalize (s : List Char)
    (hne : (((pySplitlines s).map pyStrip).filter (fun line => !line.isEmpty)) ≠ []) :
    pySplitlines (normalizeLines s) =
      (((pySplitlines s).map pyStrip).filter (fun line => !line.isEmpty)).map collapseSpTab := by
  rw [normalizeLines_eq_joinNl]
  refine pySplitlines_joinNl _ (by simpa using hne) (fun p hp => lines2_ne_nil hp)
    (fun p hp => lines2_break_free hp)

theorem normalizeLines_stable (s : List Char) :
    normalizeLines (normalizeLines s) = normalizeLines s := by
  by_cases hne : (((pySplitlines s).map pyStrip).filter (fun line => !line.isEmpty)) = []
  · have hz : normalizeLines s = [] := by
      rw [normalizeLines, hne]
      rfl
    rw [hz]
    rfl
  · have hsplit := pySplitlines_normalize s hne
    rw [normalizeLines, hsplit]
    rw [map_eq_self_of (fun p hp => pyStrip_eq_self (lines2_head_not_ws hp)
      (lines2_getLast_not_ws hp))]
    rw [List.filter_eq_self.mpr (fun p hp => by
      simp only [Bool.not_eq_true']
      rw [← Bool.not_eq_true]
      intro hx
      exact lines2_ne_nil hp (List.isEmpty_iff.mp hx))]
    rw [collapse_joinNl, List.map_map]
    rw [show (((pySplitlines s).map pyStrip).filter (fun line => !line.isEmpty)).map
        (collapseSpTab ∘ collapseSpTab) =
        (((pySplitlines s).map pyStrip).filter (fun line => !line.isEmpty)).map collapseSpTab
      from List.map_congr_left (fun p _ => by
        simp only [Function.comp_apply]
        exact collapse_idem p)]
    rw [← normalizeLines_eq_joinNl]

theorem normalizeLines_not_mem {s : List Char} {ch : Char} (hsp : ch ≠ ' ')
    (hnl : ch ≠ '\n') (hs : ch ∉ s) : ch ∉ normalizeLines s := by
  intro hmem
  rcases normalizeLines_mem hmem with hx | hx | hx
  · exact hs hx
  · exact hsp hx
  · exact hnl hx

set_option maxRecDepth 10000 in
unseal replaceAll stripTagLike stripSlashGt bsGetText reSplitBlank splitlinesGo in
/-- Claim C1, counterexample: the Markup Stripper is not idempotent.  On the
input `br clbr clear="none"ear="none"` one pass deletes the inner literal
`br clear="none"` and thereby re-creates that very artifact string, which a
second pass deletes: the first pass returns `br clear="none"` and the second
returns the empty string. -/
theorem clean_html_idempotent_cex :
    clean_html_content (clean_html_content "br clbr clear=\"none\"ear=\"none\"".toList) ≠
      clean_html_content "br clbr clear=\"none\"ear=\"none\"".toList := by decide

/-- Claim C1, amended: `clean_html_content` is idempotent on every input that
contains none of the characters `&`, `<`, `>`, `#`, `"` — the characters from
which a single pass can leave behind a decodable entity or re-create one of
the removed artifact strings.  On such inputs one pass reduces the text to a
line-normal form that a second pass maps to itself. -/
theorem clean_html_idempotent_amended (s : List Char)
    (h1 : '&' ∉ s) (h2 : '<' ∉ s) (h3 : '>' ∉ s) (h4 : '#' ∉ s) (h5 : '"' ∉ s) :
    clean_html_content (clean_html_content s) = clean_html_content s := by
  rw [clean_eq_normalize h1 h2 h3 h4 h5]
  rw [clean_eq_normalize (normalizeLines_not_mem (by decide) (by decide) h1)
    (normalizeLines_not_mem (by decide) (by decide) h2)
    (normalizeLines_not_mem (by decide) (by decide) h3)
    (normalizeLines_not_mem (by decide) (by decide) h4)
    (normalizeLines_not_mem (by decide) (by decide) h5)]
  exact normalizeLines_stable s

/-- Claim C1, witness: the amended idempotence at a concrete markup-free
document. -/
theorem clean_html_idempotent_amended_witness :
    clean_html_content (clean_html_content "hello world\nsecond   line".toList) =
      clean_html_content "hello world\nsecond   line".toList :=
  clean_html_idempotent_amended "hello world\nsecond   line".toList
    (by decide) (by decide) (by decide) (by decide) (by decide)

set_option maxRecDepth 10000 in
unseal replaceAll stripTagLike stripSlashGt bsGetText reSplitBlank splitlinesGo in
/-- Claim C2, counterexample: the CleanedText invariant fails.  On the input
`a`, `br clear="none"`, `b` (three lines) the artifact deletion empties the
middle line after the line filter has run, so the result `a\n\nb` contains an
empty line; and on `&amp;amp;amp;` the result `&amp;` still contains a
decodable markup entity. -/
theorem clean_lines_invariant_cex :
    clean_html_content "a\nbr clear=\"none\"\nb".toList = "a\n\nb".toList ∧
    [] ∈ pySplitlines (clean_html_content "a\nbr clear=\"none\"\nb".toList) ∧
    containsSub (clean_html_content "&amp;amp;amp;".toList) "&amp;".toList = true := by
  refine ⟨by decide, by decide, by decide⟩

/-- Claim C2, amended: for every input, no line of the cleaned result
contains a tag span (no `<` is followed anywhere by a `>`); and when the
input contains none of `&`, `<`, `>`, `#`, `"`, every line of the result is
non-empty and not whitespace-only.  In general the later entity and artifact
substitutions can leave empty or whitespace-only lines and undecoded
entities (see the counterexample). -/
theorem clean_lines_invariant_amended (s : List Char) :
    noLtBeforeGt (clean_html_content s) = true ∧
    (('&' ∉ s ∧ '<' ∉ s ∧ '>' ∉ s ∧ '#' ∉ s ∧ '"' ∉ s) →
      ∀ line ∈ pySplitlines (clean_html_content s), line ≠ [] ∧ pyStrip line = line) := by
  refine ⟨noLtBeforeGt_clean s, ?_⟩
  rintro ⟨h1, h2, h3, h4, h5⟩ line hline
  rw [clean_eq_normalize h1 h2 h3 h4 h5] at hline
  by_cases hne : (((pySplitlines s).map pyStrip).filter (fun line => !line.isEmpty)) = []
  · rw [show normalizeLines s = [] from by rw [normalizeLines, hne]; rfl] at hline
    rw [show pySplitlines [] = [] from rfl] at hline
    simp at hline
  · rw [pySplitlines_normalize s hne] at hline
    exact ⟨lines2_ne_nil hline,
      pyStrip_eq_self (lines2_head_not_ws hline) (lines2_getLast_not_ws hline)⟩

theorem encBits_getElem (n i : Nat) (hi : i < 65) :
    (encBits n)[i]? = some (if n.testBit i then '1' else '0') := by
  rw [encBits, List.getElem?_map, List.getElem?_range hi]
  rfl

theorem encBits_inj {n m : Nat} (hn : n < 2 ^ 65) (hm : m < 2 ^ 65)
    (he : encBits n = encBits m) : n = m := by
  apply Nat.eq_of_testBit_eq
  intro i
  by_cases hi : i < 65
  · have h1 := encBits_getElem n i hi
    have h2 := encBits_getElem m i hi
    rw [he, h2] at h1
    simp only [Option.some.injEq] at h1
    by_cases hb : m.testBit i = true
    · rw [hb] at h1 ⊢
      simp only [if_true] at h1
      by_cases hb2 : n.testBit i = true
      · exact hb2
      · rw [Bool.eq_false_iff.mpr hb2, if_neg (by simp)] at h1
        exact absurd h1 (by decide)
    · rw [Bool.eq_false_iff.mpr hb] at h1 ⊢
      simp only [Bool.false_eq_true, if_false] at h1
      by_cases hb2 : n.testBit i = true
      · rw [hb2, if_pos rfl] at h1
        exact absurd h1 (by decide)
      · rw [Bool.eq_false_iff.mpr hb2]
  · have hgei : (65 : Nat) ≤ i := Nat.le_of_not_lt hi
    have hpow : (2 : Nat) ^ 65 ≤ 2 ^ i := Nat.pow_le_pow_right (by omega) hgei
    rw [Nat.testBit_lt_two_pow (Nat.lt_of_lt_of_le hn hpow),
      Nat.testBit_lt_two_pow (Nat.lt_of_lt_of_le hm hpow)]

theorem encBits_length (n : Nat) : (encBits n).length = 65 := by
  rw [encBits, List.length_map, List.length_range]

/-- Any hash function into a 64-bit range has a collision on two distinct
section prefixes (pigeonhole over 2 ^ 64 + 1 bit-string sections of length
65 ≤ 200), and on such a pair the hash-keyed deduplication of
`extract_narrative_sections` differs from direct prefix deduplication.  So
no 64-bit instantiation of the unspecified hash can realize claim C6 for
every candidate list. -/
theorem dedupByHash_collision_unavoidable (h : List Char → Fin (2 ^ 64)) :
    ∃ a b : List Char, a ≠ b ∧ a.length ≤ 200 ∧ b.length ≤ 200 ∧
      h (a.take 200) = h (b.take 200) ∧
      dedupByHash h [a, b] ≠ dedupDirect [a, b] := by
  have hcard : (Finset.univ : Finset (Fin (2 ^ 64))).card < (Finset.range (2 ^ 64 + 1)).card := by
    rw [Finset.card_univ, Fintype.card_fin, Finset.card_range]
    omega
  obtain ⟨x, hx, y, hy, hxy, hfeq⟩ :=
    Finset.exists_ne_map_eq_of_card_lt_of_maps_to hcard
      (fun n _ => Finset.mem_univ (h (encBits n)))
  rw [Finset.mem_range] at hx hy
  have hx65 : x < 2 ^ 65 := by
    have : (2 : Nat) ^ 64 + 1 ≤ 2 ^ 65 := by norm_num
    omega
  have hy65 : y < 2 ^ 65 := by
    have : (2 : Nat) ^ 64 + 1 ≤ 2 ^ 65 := by norm_num
    omega
  refine ⟨encBits x, encBits y, ?_, ?_, ?_, ?_, ?_⟩
  · intro he
    exact hxy (encBits_inj hx65 hy65 he)
  · rw [encBits_length]; omega
  · rw [encBits_length]; omega
  · rw [List.take_of_length_le (by rw [encBits_length]; omega),
      List.take_of_length_le (by rw [encBits_length]; omega)]
    exact hfeq
  · have htk : ∀ n : Nat, (encBits n).take 200 = encBits n :=
      fun n => List.take_of_length_le (by rw [encBits_length]; omega)
    have e1 : dedupByHash h [encBits x, encBits y] = [encBits x] := by
      rw [dedupByHash, dedupHashAux, if_neg (by simp)]
      rw [dedupHashAux, if_pos ?_, dedupHashAux]
      rw [htk x, htk y]
      rw [show h (encBits y) = h (encBits x) from hfeq.symm]
      exact List.mem_singleton_self _
    rw [e1]
    intro he
    have hlen := congrArg List.length he
    rw [dedupDirect, dedupDirectAux, if_neg (by simp), dedupDirectAux] at hlen
    by_cases hmem : (encBits y).take 200 ∈ [(encBits x).take 200]
    · rw [htk x, htk y] at hmem
      have heq2 : encBits y = encBits x := List.mem_singleton.mp hmem
      exact hxy (encBits_inj hy65 hx65 heq2).symm
    · rw [if_neg hmem, dedupDirectAux] at hlen
      simp at hlen
